import Mathlib

/-!
A verification development for the 1BRC aggregation pipeline in
`src/main/go/calc.go`.

Modelling conventions:
* bytes are `Nat` (with `< 256` hypotheses where the value range matters);
* `uint64` arithmetic is `Nat` arithmetic with explicit reduction `% 2 ^ 64`;
  the Go complement `^x` is `x ^^^ (2 ^ 64 - 1)`;
* `int64` values that never overflow (measurement fields) are `Int`;
* Go maps keyed by station name are association lists with distinct keys,
  compared through `lookupT`;
* fatal `log.Fatalf` termination is `Option` (`none` = the run dies);
* the `float64` arithmetic of the rounding helpers is modelled over `ℚ`,
  which is exact at every value appearing in the claims.
-/

namespace OneBRC

/-- The `measurement` struct of calc.go: running min, max, sum, count. -/
structure Meas where
  mmin : Int
  mmax : Int
  msum : Int
  mcount : Int
deriving DecidableEq, Repr

/-- A fresh measurement for the first occurrence of a station:
`{min: temp, max: temp, sum: temp, count: 1}`. -/
def Meas.single (v : Int) : Meas := ⟨v, v, v, 1⟩

/-- Merging two measurements, as in the merge loop of `process`:
min of mins, max of maxes, sum of sums, sum of counts. -/
def Meas.combine (m r : Meas) : Meas :=
  ⟨min m.mmin r.mmin, max m.mmax r.mmax, m.msum + r.msum, m.mcount + r.mcount⟩

/-- Folding one further observation into a measurement, as in the repeat
branch of the `processChunk` scan loop. -/
def Meas.add1 (m : Meas) (v : Int) : Meas :=
  ⟨min m.mmin v, max m.mmax v, m.msum + v, m.mcount + 1⟩

/-- Station tables (`map[string]*measurement`), as association lists from
station-name bytes to measurements. All tables the model builds have
distinct keys, and are compared through `lookupT`. -/
abbrev Table := List (List Nat × Meas)

/-- Map lookup: the first entry with the given name. -/
def lookupT (t : Table) (name : List Nat) : Option Meas :=
  (t.find? (fun e => e.1 == name)).map (fun e => e.2)

/-- Two tables denote the same station-to-stats mapping. -/
def tableEquiv (t u : Table) : Prop := ∀ name, lookupT t name = lookupT u name

/-- calc.go `parseNumber`: reads a decimal matching `-?[0-9]{1,2}[.][0-9]`
from ASCII bytes and returns the value multiplied by 10. The Go code indexes
a slice it assumes well-formed; out-of-range access is rendered by `getD`
(never exercised under the precondition). 45 is `'-'`, 48 is `'0'`. -/
def parseNumber (data : List Nat) : Int :=
  let negative := data.getD 0 0 = 45
  let d := if negative then data.drop 1 else data
  let result : Int :=
    if d.length = 3 then
      (d.getD 0 0 : Int) * 10 + (d.getD 2 0 : Int) - 48 * (10 + 1)
    else if d.length = 4 then
      (d.getD 0 0 : Int) * 100 + (d.getD 1 0 : Int) * 10 + (d.getD 3 0 : Int) -
        48 * (100 + 10 + 1)
    else 0
  if negative then -result else result

/-- Abstract shape of a valid temperature literal `-?[0-9]{1,2}[.][0-9]`:
sign, leading digit, optional second digit, fractional digit. -/
structure Numeral where
  neg : Bool
  d1 : Nat
  d2 : Option Nat
  frac : Nat
deriving DecidableEq, Repr

/-- The digits are in range. -/
def Numeral.wf (u : Numeral) : Prop :=
  u.d1 ≤ 9 ∧ u.frac ≤ 9 ∧ ∀ d ∈ u.d2, d ≤ 9

instance (u : Numeral) : Decidable u.wf := by
  unfold Numeral.wf; infer_instance

/-- ASCII bytes of the literal (length 3, 4 or 5). -/
def Numeral.bytes (u : Numeral) : List Nat :=
  (if u.neg then [45] else []) ++ [48 + u.d1] ++
    (match u.d2 with | some d => [48 + d] | none => []) ++ [46, 48 + u.frac]

/-- The denoted decimal value multiplied by 10. -/
def Numeral.val (u : Numeral) : Int :=
  let mag : Int :=
    match u.d2 with
    | none => u.d1 * 10 + u.frac
    | some d => u.d1 * 100 + d * 10 + u.frac
  if u.neg then -mag else mag

/-- `bits.TrailingZeros64`: index of the lowest set bit, 64 when none
(of the value reduced to 64 bits). -/
def tz64 (n : Nat) : Nat := ((List.range 64).find? (fun i => n.testBit i)).getD 64

/-- Reinterpret a uint64 bit pattern as an int64 value. -/
def toInt64 (n : Nat) : Int := if n < 2 ^ 63 then (n : Int) else (n : Int) - 2 ^ 64

/-- `binary.LittleEndian.Uint64`: the little-endian word of the first 8 bytes
of a byte list (every call site has at least 8 bytes available). -/
def readLE64 (bs : List Nat) : Nat := (bs.take 8).foldr (fun b acc => b + 256 * acc) 0

/-- calc.go `parseNumberLE` (the same code is inlined verbatim inside
`processChunk`): branchless parse of `-?[0-9]{1,2}[.][0-9]` from the low
bytes of a little-endian uint64 word, returning the scaled value and the
byte count consumed. The Go int expression `(20 - dotPos) & 8` is
two's-complement `&`, rendered through `emod (2 ^ 64)` of the difference. -/
def parseNumberLE (x : Nat) : Int × Nat :=
  let negative := ((x ^^^ (2 ^ 64 - 1)) &&& 0x10) >>> 4
  let absolute := x >>> (negative <<< 3)
  let dotPos := tz64 ((absolute ^^^ (2 ^ 64 - 1)) &&& 0x101000)
  let normShift := ((((20 : Int) - (dotPos : Int)).emod (2 ^ 64)).toNat) &&& 8
  let normalized := ((absolute <<< normShift) % 2 ^ 64) &&& 0x0f000f0f
  let value := (((normalized * 0x640a0001) % 2 ^ 64) >>> 24) &&& 0x3ff
  let signed := toInt64 (((value ^^^ ((2 ^ 64 - negative) % 2 ^ 64)) + negative) % 2 ^ 64)
  let size := negative + (4 - (normShift >>> 3))
  (signed, size)

/-- One FNV-1a step of the `processChunk` name scan:
`idHash ^= uint64(b); idHash *= fnv1aPrime64`. -/
def fnvStep (h b : Nat) : Nat := ((h ^^^ b) * 1099511628211) % 2 ^ 64

/-- The 64-bit FNV-1a hash of a station name, as accumulated by the scan. -/
def fnv1a (bs : List Nat) : Nat := bs.foldl fnvStep 14695981039346656037

/-- Go `math.Trunc` over ℚ: round toward zero. -/
def truncQ (x : ℚ) : ℚ := if x < 0 then -(⌊-x⌋ : ℚ) else (⌊x⌋ : ℚ)

/-- Go `math.Abs` over ℚ. -/
def absQ (x : ℚ) : ℚ := if x < 0 then -x else x

/-- calc.go `roundJava`: closest integer with ties rounding toward positive
infinity, and `-0.0` normalised to `0.0`. The final `if t == 0` branch is
the -0.0 normalisation; ℚ has no negative zero, so there it is an identity
kept for structural fidelity. `math.Copysign(1, x)` is `-1` for `x < 0`
and `1` otherwise (`x = -0.0` never reaches that branch). -/
def roundJava (x : ℚ) : ℚ :=
  let t := truncQ x
  let t1 :=
    if x < 0 ∧ t - x = 1 / 2 then t
    else if absQ (x - t) ≥ 1 / 2 then t + (if x < 0 then -1 else 1)
    else t
  if t1 = 0 then 0 else t1

/-- calc.go `round`. -/
def round (x : ℚ) : ℚ := roundJava (x * 10.0) / 10.0

/-- The three values `main` prints for one station:
`round(min/10)`, `round(sum/10/count)`, `round(max/10)`. -/
def displayed (m : Meas) : ℚ × ℚ × ℚ :=
  (round ((m.mmin : ℚ) / 10.0),
   round ((m.msum : ℚ) / 10.0 / (m.mcount : ℚ)),
   round ((m.mmax : ℚ) / 10.0))

/-! ### Generic bit-arithmetic helpers for the branchless parser -/

theorem testBit_eq_of_mod_eq {a b : Nat} (i : Nat) (h : a % 2 ^ (i + 1) = b % 2 ^ (i + 1)) :
    a.testBit i = b.testBit i := by
  have ha : a.testBit i = (a % 2 ^ (i + 1)).testBit i := by simp [Nat.testBit_mod_two_pow]
  have hb : b.testBit i = (b % 2 ^ (i + 1)).testBit i := by simp [Nat.testBit_mod_two_pow]
  rw [ha, hb, h]

/-- A mask below `2 ^ k` ignores everything added in multiples of `2 ^ k`. -/
theorem and_low (a t k m : Nat) (hm : m < 2 ^ k) :
    (a + 2 ^ k * t) &&& m = (a % 2 ^ k) &&& m := by
  apply Nat.eq_of_testBit_eq
  intro i
  rw [Nat.testBit_and, Nat.testBit_and]
  by_cases him : m.testBit i = true
  · have hik : i < k := by
      by_contra hik
      have h1 : m < 2 ^ i := lt_of_lt_of_le hm (Nat.pow_le_pow_right (by norm_num) (by omega))
      rw [Nat.testBit_lt_two_pow h1] at him
      exact Bool.noConfusion him
    have hdvd : (2 : Nat) ^ (i + 1) ∣ 2 ^ k := pow_dvd_pow 2 (by omega)
    obtain ⟨c, hc⟩ := hdvd
    have h2 : (a + 2 ^ k * t) % 2 ^ (i + 1) = (a % 2 ^ k) % 2 ^ (i + 1) := by
      rw [Nat.mod_mod_of_dvd _ ⟨c, hc⟩, hc, Nat.mul_assoc, Nat.add_mul_mod_self_left]
    rw [testBit_eq_of_mod_eq i h2]
  · simp at him
    simp [him]

/-- The sign-extraction step of `parseNumberLE` in terms of bit 4 of the word. -/
theorem compl_and16 (x : Nat) : ((x ^^^ (2 ^ 64 - 1)) &&& 0x10) >>> 4 = 1 - x / 16 % 2 := by
  have h1 : (x ^^^ (2 ^ 64 - 1)) &&& 0x10 = ((x ^^^ (2 ^ 64 - 1)).testBit 4).toNat * 2 ^ 4 := by
    have := Nat.and_two_pow (x ^^^ (2 ^ 64 - 1)) 4
    simpa using this
  rw [h1, Nat.testBit_xor, Nat.testBit_two_pow_sub_one]
  have h2 : x.testBit 4 = decide (x / 2 ^ 4 % 2 = 1) := Nat.testBit_to_div_mod
  rw [h2]
  rcases Nat.mod_two_eq_zero_or_one (x / 16) with h | h <;>
    simp [h, Nat.shiftRight_eq_div_pow] <;> omega

/-- The dot-locating mask of `parseNumberLE` in terms of bits 12 and 20. -/
theorem compl_and_dotmask (a : Nat) :
    (a ^^^ (2 ^ 64 - 1)) &&& 0x101000 =
      (if a / 2 ^ 12 % 2 = 1 then 0 else 2 ^ 12) +
        (if a / 2 ^ 20 % 2 = 1 then 0 else 2 ^ 20) := by
  have hmask : (0x101000 : Nat) = 2 ^ 12 ||| 2 ^ 20 := by decide
  have hsum : (2 ^ 12 + 2 ^ 20 : Nat) = 2 ^ 12 ||| 2 ^ 20 := by decide
  have h12 : a.testBit 12 = decide (a / 2 ^ 12 % 2 = 1) := Nat.testBit_to_div_mod
  have h20 : a.testBit 20 = decide (a / 2 ^ 20 % 2 = 1) := Nat.testBit_to_div_mod
  rcases Nat.mod_two_eq_zero_or_one (a / 2 ^ 12) with hb12 | hb12 <;>
    rcases Nat.mod_two_eq_zero_or_one (a / 2 ^ 20) with hb20 | hb20 <;>
    simp only [hb12, hb20, zero_ne_one, if_false, if_true, reduceCtorEq, reduceIte,
      Nat.add_zero, Nat.zero_add, hsum] <;>
    · apply Nat.eq_of_testBit_eq
      intro i
      simp only [Nat.testBit_and, hmask, Nat.testBit_or, Nat.testBit_xor,
        Nat.testBit_two_pow_sub_one, Nat.testBit_two_pow, Nat.zero_testBit]
      by_cases hi12 : 12 = i
      · subst hi12; simp [h12, hb12, hb20] <;> omega
      · by_cases hi20 : 20 = i
        · subst hi20; simp [h20, hb12, hb20] <;> omega
        · simp [hi12, hi20] <;> omega

set_option maxRecDepth 4000

/-- The digit-lane multiply-and-shift, checked for all one-digit numerals. -/
theorem digits_one_all : ∀ d1 ≤ 9, ∀ f ≤ 9,
    ((((((48 + d1) * 2 ^ 8 + 46 * 2 ^ 16 + (48 + f) * 2 ^ 24) &&& 0x0f000f0f) *
        0x640a0001) % 2 ^ 64) >>> 24) &&& 0x3ff = 10 * d1 + f := by
  decide

/-- The digit-lane multiply-and-shift, checked for all two-digit numerals. -/
theorem digits_two_all : ∀ d1 ≤ 9, ∀ d2 ≤ 9, ∀ f ≤ 9,
    ((((((48 + d1) + (48 + d2) * 2 ^ 8 + 46 * 2 ^ 16 + (48 + f) * 2 ^ 24) &&& 0x0f000f0f) *
        0x640a0001) % 2 ^ 64) >>> 24) &&& 0x3ff = 100 * d1 + 10 * d2 + f := by
  decide

/-- `value ^ -1 + 1` negates the scaled value through two's complement. -/
theorem negXor : ∀ n ≤ 999,
    toInt64 (((n ^^^ (2 ^ 64 - 1)) + 1) % 2 ^ 64) = -(n : Int) := by
  decide

theorem toInt64_small (n : Nat) (h : n ≤ 999) : toInt64 n = (n : Int) := by
  unfold toInt64
  rw [if_pos (by omega)]

/-- `parseNumber` evaluates every well-formed literal to its scaled value. -/
theorem parseNumber_bytes (u : Numeral) (h : u.wf) :
    parseNumber u.bytes = u.val := by
  obtain ⟨h1, h2, h3⟩ := h
  rcases u with ⟨neg, d1, d2, f⟩
  rcases neg <;> rcases d2 with _ | d <;>
    simp_all [Numeral.bytes, Numeral.val, parseNumber, List.getD] <;>
    push_cast <;> omega

/-- C3: for every input byte string matching `-?[0-9]{1,2}.[0-9]`,
`parseNumber` returns the signed integer equal to the denoted decimal value
multiplied by 10. -/
theorem c3_parseNumber_correct (u : Numeral) (h : u.wf) :
    parseNumber u.bytes = u.val := parseNumber_bytes u h

theorem c3_parseNumber_correct_witness :
    (Numeral.wf ⟨true, 1, some 2, 3⟩) ∧
      parseNumber (Numeral.bytes ⟨true, 1, some 2, 3⟩) = Numeral.val ⟨true, 1, some 2, 3⟩ :=
  ⟨by decide, c3_parseNumber_correct ⟨true, 1, some 2, 3⟩ (by decide)⟩

/-- C5: `roundJava` rounds half-way cases toward positive infinity and
normalises negative zero: `roundJava (-0.5) = 0`, `roundJava (-1.5) = -1`,
`roundJava 0.5 = 1`, `roundJava 1.5 = 2`; and the displayed per-station
values are `round(min/10)`, `round(sum/10/count)`, `round(max/10)` on the
final scaled integers. -/
theorem c5_rounding :
    roundJava (-0.5) = 0 ∧ roundJava (-1.5) = -1 ∧
    roundJava 0.5 = 1 ∧ roundJava 1.5 = 2 ∧
    ∀ m : Meas, displayed m =
      (round ((m.mmin : ℚ) / 10.0),
       round ((m.msum : ℚ) / 10.0 / (m.mcount : ℚ)),
       round ((m.mmax : ℚ) / 10.0)) :=
  ⟨by norm_num [roundJava, truncQ, absQ], by norm_num [roundJava, truncQ, absQ],
   by norm_num [roundJava, truncQ, absQ], by norm_num [roundJava, truncQ, absQ],
   fun m => rfl⟩

/-- `parseNumberLE` on a word holding `-[d1][d2].[f]` in its low five bytes
and arbitrary high bytes. -/
theorem parseLE_neg_two (d1 d2 f t : Nat) (h1 : d1 ≤ 9) (h2 : d2 ≤ 9) (hf : f ≤ 9)
    (ht : t < 2 ^ 24) :
    parseNumberLE
        (45 + (48 + d1) * 2 ^ 8 + (48 + d2) * 2 ^ 16 + 46 * 2 ^ 24 + (48 + f) * 2 ^ 32 +
          2 ^ 40 * t) =
      (-((100 * d1 + 10 * d2 + f : Nat) : Int), 5) := by
  simp only [parseNumberLE]
  rw [show ((((45 + (48 + d1) * 2 ^ 8 + (48 + d2) * 2 ^ 16 + 46 * 2 ^ 24 + (48 + f) * 2 ^ 32 +
      2 ^ 40 * t) ^^^ (2 ^ 64 - 1)) &&& 0x10) >>> 4) = 1 by rw [compl_and16]; omega]
  rw [show ((45 + (48 + d1) * 2 ^ 8 + (48 + d2) * 2 ^ 16 + 46 * 2 ^ 24 + (48 + f) * 2 ^ 32 +
      2 ^ 40 * t) >>> (1 <<< 3)) =
      (48 + d1) + (48 + d2) * 2 ^ 8 + 46 * 2 ^ 16 + (48 + f) * 2 ^ 24 + 2 ^ 32 * t by
    rw [show (1 : Nat) <<< 3 = 8 by rfl, Nat.shiftRight_eq_div_pow]; omega]
  rw [show ((((48 + d1) + (48 + d2) * 2 ^ 8 + 46 * 2 ^ 16 + (48 + f) * 2 ^ 24 + 2 ^ 32 * t) ^^^
      (2 ^ 64 - 1)) &&& 0x101000) = 2 ^ 20 by
    rw [compl_and_dotmask, if_pos (by omega), if_neg (by omega)]; omega]
  rw [show tz64 (2 ^ 20) = 20 by decide]
  rw [show ((((20 : Int) - ((20 : Nat) : Int)).emod (2 ^ 64)).toNat) &&& 8 = 0 by decide]
  rw [show (((48 + d1) + (48 + d2) * 2 ^ 8 + 46 * 2 ^ 16 + (48 + f) * 2 ^ 24 + 2 ^ 32 * t) <<< 0)
      = (48 + d1) + (48 + d2) * 2 ^ 8 + 46 * 2 ^ 16 + (48 + f) * 2 ^ 24 + 2 ^ 32 * t from
    Nat.shiftLeft_zero]
  rw [show ((48 + d1) + (48 + d2) * 2 ^ 8 + 46 * 2 ^ 16 + (48 + f) * 2 ^ 24 + 2 ^ 32 * t) % 2 ^ 64
      = ((48 + d1) + (48 + d2) * 2 ^ 8 + 46 * 2 ^ 16 + (48 + f) * 2 ^ 24) + 2 ^ 32 * (t % 2 ^ 32)
    by omega]
  rw [and_low _ _ 32 _ (by norm_num)]
  rw [Nat.mod_eq_of_lt (show (48 + d1) + (48 + d2) * 2 ^ 8 + 46 * 2 ^ 16 + (48 + f) * 2 ^ 24 <
    2 ^ 32 by omega)]
  rw [digits_two_all d1 h1 d2 h2 f hf]
  rw [show (2 ^ 64 - 1) % 2 ^ 64 = 2 ^ 64 - 1 by norm_num]
  rw [negXor (100 * d1 + 10 * d2 + f) (by omega)]
  norm_num

/-- `parseNumberLE` on a word holding `-[d1].[f]` in its low four bytes
and arbitrary high bytes. -/
theorem parseLE_neg_one (d1 f t : Nat) (h1 : d1 ≤ 9) (hf : f ≤ 9)
    (ht : t < 2 ^ 32) :
    parseNumberLE (45 + (48 + d1) * 2 ^ 8 + 46 * 2 ^ 16 + (48 + f) * 2 ^ 24 + 2 ^ 32 * t) =
      (-((10 * d1 + f : Nat) : Int), 4) := by
  simp only [parseNumberLE]
  rw [show ((((45 + (48 + d1) * 2 ^ 8 + 46 * 2 ^ 16 + (48 + f) * 2 ^ 24 +
      2 ^ 32 * t) ^^^ (2 ^ 64 - 1)) &&& 0x10) >>> 4) = 1 by rw [compl_and16]; omega]
  rw [show ((45 + (48 + d1) * 2 ^ 8 + 46 * 2 ^ 16 + (48 + f) * 2 ^ 24 + 2 ^ 32 * t) >>>
      (1 <<< 3)) = (48 + d1) + 46 * 2 ^ 8 + (48 + f) * 2 ^ 16 + 2 ^ 24 * t by
    rw [show (1 : Nat) <<< 3 = 8 by rfl, Nat.shiftRight_eq_div_pow]; omega]
  rw [show ((((48 + d1) + 46 * 2 ^ 8 + (48 + f) * 2 ^ 16 + 2 ^ 24 * t) ^^^
      (2 ^ 64 - 1)) &&& 0x101000) = 2 ^ 12 by
    rw [compl_and_dotmask, if_neg (by omega), if_pos (by omega)]; omega]
  rw [show tz64 (2 ^ 12) = 12 by decide]
  rw [show ((((20 : Int) - ((12 : Nat) : Int)).emod (2 ^ 64)).toNat) &&& 8 = 8 by decide]
  rw [Nat.shiftLeft_eq]
  rw [show ((48 + d1) + 46 * 2 ^ 8 + (48 + f) * 2 ^ 16 + 2 ^ 24 * t) * 2 ^ 8 % 2 ^ 64
      = ((48 + d1) * 2 ^ 8 + 46 * 2 ^ 16 + (48 + f) * 2 ^ 24) + 2 ^ 32 * (t % 2 ^ 32)
    by omega]
  rw [and_low _ _ 32 _ (by norm_num)]
  rw [Nat.mod_eq_of_lt (show (48 + d1) * 2 ^ 8 + 46 * 2 ^ 16 + (48 + f) * 2 ^ 24 <
    2 ^ 32 by omega)]
  rw [digits_one_all d1 h1 f hf]
  rw [show (2 ^ 64 - 1) % 2 ^ 64 = 2 ^ 64 - 1 by norm_num]
  rw [negXor (10 * d1 + f) (by omega)]
  rw [show (8 : Nat) >>> 3 = 1 by rfl]

/-- `parseNumberLE` on a word holding `[d1][d2].[f]` in its low four bytes
and arbitrary high bytes. -/
theorem parseLE_pos_two (d1 d2 f t : Nat) (h1 : d1 ≤ 9) (h2 : d2 ≤ 9) (hf : f ≤ 9)
    (ht : t < 2 ^ 32) :
    parseNumberLE
        ((48 + d1) + (48 + d2) * 2 ^ 8 + 46 * 2 ^ 16 + (48 + f) * 2 ^ 24 + 2 ^ 32 * t) =
      (((100 * d1 + 10 * d2 + f : Nat) : Int), 4) := by
  simp only [parseNumberLE]
  rw [show (((((48 + d1) + (48 + d2) * 2 ^ 8 + 46 * 2 ^ 16 + (48 + f) * 2 ^ 24 +
      2 ^ 32 * t) ^^^ (2 ^ 64 - 1)) &&& 0x10) >>> 4) = 0 by rw [compl_and16]; omega]
  rw [show (0 : Nat) <<< 3 = 0 by rfl]
  rw [Nat.shiftRight_zero]
  rw [show ((((48 + d1) + (48 + d2) * 2 ^ 8 + 46 * 2 ^ 16 + (48 + f) * 2 ^ 24 + 2 ^ 32 * t) ^^^
      (2 ^ 64 - 1)) &&& 0x101000) = 2 ^ 20 by
    rw [compl_and_dotmask, if_pos (by omega), if_neg (by omega)]; omega]
  rw [show tz64 (2 ^ 20) = 20 by decide]
  rw [show ((((20 : Int) - ((20 : Nat) : Int)).emod (2 ^ 64)).toNat) &&& 8 = 0 by decide]
  rw [show (((48 + d1) + (48 + d2) * 2 ^ 8 + 46 * 2 ^ 16 + (48 + f) * 2 ^ 24 + 2 ^ 32 * t) <<< 0)
      = (48 + d1) + (48 + d2) * 2 ^ 8 + 46 * 2 ^ 16 + (48 + f) * 2 ^ 24 + 2 ^ 32 * t from
    Nat.shiftLeft_zero]
  rw [show ((48 + d1) + (48 + d2) * 2 ^ 8 + 46 * 2 ^ 16 + (48 + f) * 2 ^ 24 + 2 ^ 32 * t) % 2 ^ 64
      = ((48 + d1) + (48 + d2) * 2 ^ 8 + 46 * 2 ^ 16 + (48 + f) * 2 ^ 24) + 2 ^ 32 * (t % 2 ^ 32)
    by omega]
  rw [and_low _ _ 32 _ (by norm_num)]
  rw [Nat.mod_eq_of_lt (show (48 + d1) + (48 + d2) * 2 ^ 8 + 46 * 2 ^ 16 + (48 + f) * 2 ^ 24 <
    2 ^ 32 by omega)]
  rw [digits_two_all d1 h1 d2 h2 f hf]
  rw [show (2 ^ 64 - 0) % 2 ^ 64 = 0 by norm_num]
  rw [Nat.xor_zero, Nat.add_zero]
  rw [Nat.mod_eq_of_lt (show 100 * d1 + 10 * d2 + f < 2 ^ 64 by omega)]
  rw [toInt64_small _ (by omega)]
  norm_num

/-- `parseNumberLE` on a word holding `[d1].[f]` in its low three bytes
and arbitrary high bytes. -/
theorem parseLE_pos_one (d1 f t : Nat) (h1 : d1 ≤ 9) (hf : f ≤ 9)
    (ht : t < 2 ^ 40) :
    parseNumberLE ((48 + d1) + 46 * 2 ^ 8 + (48 + f) * 2 ^ 16 + 2 ^ 24 * t) =
      (((10 * d1 + f : Nat) : Int), 3) := by
  simp only [parseNumberLE]
  rw [show ((((48 + d1) + 46 * 2 ^ 8 + (48 + f) * 2 ^ 16 +
      2 ^ 24 * t) ^^^ (2 ^ 64 - 1)) &&& 0x10) >>> 4 = 0 by rw [compl_and16]; omega]
  rw [show (0 : Nat) <<< 3 = 0 by rfl]
  rw [Nat.shiftRight_zero]
  rw [show ((((48 + d1) + 46 * 2 ^ 8 + (48 + f) * 2 ^ 16 + 2 ^ 24 * t) ^^^
      (2 ^ 64 - 1)) &&& 0x101000) = 2 ^ 12 by
    rw [compl_and_dotmask, if_neg (by omega), if_pos (by omega)]; omega]
  rw [show tz64 (2 ^ 12) = 12 by decide]
  rw [show ((((20 : Int) - ((12 : Nat) : Int)).emod (2 ^ 64)).toNat) &&& 8 = 8 by decide]
  rw [Nat.shiftLeft_eq]
  rw [show ((48 + d1) + 46 * 2 ^ 8 + (48 + f) * 2 ^ 16 + 2 ^ 24 * t) * 2 ^ 8 % 2 ^ 64
      = ((48 + d1) * 2 ^ 8 + 46 * 2 ^ 16 + (48 + f) * 2 ^ 24) + 2 ^ 32 * (t % 2 ^ 32)
    by omega]
  rw [and_low _ _ 32 _ (by norm_num)]
  rw [Nat.mod_eq_of_lt (show (48 + d1) * 2 ^ 8 + 46 * 2 ^ 16 + (48 + f) * 2 ^ 24 <
    2 ^ 32 by omega)]
  rw [digits_one_all d1 h1 f hf]
  rw [show (2 ^ 64 - 0) % 2 ^ 64 = 0 by norm_num]
  rw [Nat.xor_zero, Nat.add_zero]
  rw [Nat.mod_eq_of_lt (show 10 * d1 + f < 2 ^ 64 by omega)]
  rw [toInt64_small _ (by omega)]
  rw [show (8 : Nat) >>> 3 = 1 by rfl]

/-- The general form of word-parser correctness: the numeral in the low
bytes, any junk above. -/
theorem parseNumberLE_general (u : Numeral) (hu : u.wf) (t : Nat)
    (ht : t < 2 ^ (64 - 8 * u.bytes.length)) :
    parseNumberLE (readLE64 u.bytes + 2 ^ (8 * u.bytes.length) * t) =
      (u.val, u.bytes.length) := by
  obtain ⟨h1, h2, h3⟩ := hu
  rcases u with ⟨neg, d1, d2, f⟩
  rcases neg <;> rcases d2 with _ | d <;>
    simp only [Numeral.bytes, Numeral.val, Bool.false_eq_true, if_false, if_true,
      List.nil_append, List.cons_append, List.append_nil, List.length_cons,
      List.length_nil] at ht ⊢ <;>
    simp only [List.length_nil] at h3 ⊢
  · norm_num at ht
    rw [show readLE64 [48 + d1, 46, 48 + f] + 2 ^ (8 * (0 + 1 + 1 + 1)) * t =
        (48 + d1) + 46 * 2 ^ 8 + (48 + f) * 2 ^ 16 + 2 ^ 24 * t by
      simp [readLE64]; omega]
    rw [parseLE_pos_one d1 f t h1 h2 (by omega)]
    simp only [Prod.mk.injEq, Numeral.val]
    exact ⟨by push_cast; ring, by trivial⟩
  · norm_num at ht
    rw [show readLE64 [48 + d1, 48 + d, 46, 48 + f] + 2 ^ (8 * (0 + 1 + 1 + 1 + 1)) * t =
        (48 + d1) + (48 + d) * 2 ^ 8 + 46 * 2 ^ 16 + (48 + f) * 2 ^ 24 + 2 ^ 32 * t by
      simp [readLE64]; omega]
    rw [parseLE_pos_two d1 d f t h1 (by simp at h3; exact h3) h2 (by omega)]
    simp only [Prod.mk.injEq, Numeral.val]
    exact ⟨by push_cast; ring, by trivial⟩
  · norm_num at ht
    rw [show readLE64 [45, 48 + d1, 46, 48 + f] + 2 ^ (8 * (0 + 1 + 1 + 1 + 1)) * t =
        45 + (48 + d1) * 2 ^ 8 + 46 * 2 ^ 16 + (48 + f) * 2 ^ 24 + 2 ^ 32 * t by
      simp [readLE64]; omega]
    rw [parseLE_neg_one d1 f t h1 h2 (by omega)]
    simp only [Prod.mk.injEq, Numeral.val]
    exact ⟨by push_cast; ring, by trivial⟩
  · norm_num at ht
    rw [show readLE64 [45, 48 + d1, 48 + d, 46, 48 + f] + 2 ^ (8 * (0 + 1 + 1 + 1 + 1 + 1)) * t =
        45 + (48 + d1) * 2 ^ 8 + (48 + d) * 2 ^ 16 + 46 * 2 ^ 24 + (48 + f) * 2 ^ 32 +
          2 ^ 40 * t by
      simp [readLE64]; omega]
    rw [parseLE_neg_two d1 d f t h1 (by simp at h3; exact h3) h2 (by omega)]
    simp only [Prod.mk.injEq, Numeral.val]
    exact ⟨by push_cast; ring, by trivial⟩

/-- C2: for every numeral matching `-?[0-9]{1,2}.[0-9]` placed in the low
bytes of an 8-byte little-endian word, with arbitrary remaining high bytes,
`parseNumberLE` returns the same scaled integer as `parseNumber` on the
numeral's bytes, and consumes exactly the numeral's length. -/
theorem c2_parseNumberLE_refines (u : Numeral) (hu : u.wf) (t : Nat)
    (ht : t < 2 ^ (64 - 8 * u.bytes.length)) :
    parseNumberLE (readLE64 u.bytes + 2 ^ (8 * u.bytes.length) * t) =
      (parseNumber u.bytes, u.bytes.length) := by
  rw [parseNumber_bytes u hu]
  exact parseNumberLE_general u hu t ht

theorem c2_parseNumberLE_refines_witness :
    (Numeral.wf ⟨true, 1, some 2, 3⟩ ∧ 12345 < 2 ^ (64 - 8 * (Numeral.bytes ⟨true, 1, some 2, 3⟩).length)) ∧
      parseNumberLE (readLE64 (Numeral.bytes ⟨true, 1, some 2, 3⟩) +
          2 ^ (8 * (Numeral.bytes ⟨true, 1, some 2, 3⟩).length) * 12345) =
        (parseNumber (Numeral.bytes ⟨true, 1, some 2, 3⟩), (Numeral.bytes ⟨true, 1, some 2, 3⟩).length) :=
  ⟨⟨by decide, by decide⟩, c2_parseNumberLE_refines ⟨true, 1, some 2, 3⟩ (by decide) 12345 (by decide)⟩

/-! ### The processChunk scan: hash table state and loop -/

/-- `chunkOverlap` from calc.go. -/
def chunkOverlap : Nat := 4

/-- `nBuckets = 1 << 12` from `processChunk`. -/
def nBuckets : Nat := 1 <<< 12

/-- A bucket entry of the `processChunk` table: uint64 hash key and index
into the dense measurement array. -/
structure Entry where
  key : Nat
  mid : Nat
deriving DecidableEq, Repr

/-- The `processChunk` table state: `buckets` and `ids` are Go
array/map indexings rendered as functions, `meas` is the dense
`measurements` slice. -/
structure CState where
  buckets : Nat → List Entry
  meas : List Meas
  ids : Nat → Option (List Nat)

def initState : CState := ⟨fun _ => [], [], fun _ => none⟩

/-- `getMeasurement`: scan the bucket `key & (nBuckets-1)` for an entry with
this exact hash (names are never compared); yields the measurement index. -/
def getM (st : CState) (key : Nat) : Option Nat :=
  ((st.buckets (key &&& (nBuckets - 1))).find? (fun e => e.key == key)).map (fun e => e.mid)

/-- `putMeasurement`: append an entry to the bucket and a measurement to the
dense array. -/
def putM (st : CState) (key : Nat) (m : Meas) : CState :=
  { st with
    buckets := fun j =>
      if j = key &&& (nBuckets - 1) then st.buckets j ++ [⟨key, st.meas.length⟩]
      else st.buckets j,
    meas := st.meas ++ [m] }

/-- `ids[idHash] = idData`. -/
def setId (st : CState) (key : Nat) (name : List Nat) : CState :=
  { st with ids := fun h => if h = key then some name else st.ids h }

/-- In-place update of one slot of the dense measurement array (the Go code
mutates through the pointer returned by `getMeasurement`). -/
def modifyAt {α : Type} : List α → Nat → (α → α) → List α
  | [], _, _ => []
  | m :: rest, 0, f => f m :: rest
  | m :: rest, n + 1, f => m :: modifyAt rest n f

/-- The tail of one scan-loop iteration: fold the sliced record
`(idHash, idData, temp)` into the table, exactly as in `processChunk`. -/
def stepRecord (st : CState) (idHash : Nat) (idData : List Nat) (temp : Int) : CState :=
  match getM st idHash with
  | none => setId (putM st idHash (Meas.single temp)) idHash idData
  | some mid => { st with meas := modifyAt st.meas mid (fun m => m.add1 temp) }

/-- The name-scanning loop of `processChunk`: FNV-1a-hash bytes until `';'`
(59), returning the hash and the semicolon index. With no semicolon,
`semiPos` keeps its initial value 0 while the hash covers all bytes,
exactly as in the Go loop. -/
def nameScan : List Nat → Nat → Nat → Nat × Nat
  | [], h, _ => (h, 0)
  | b :: rest, h, i => if b = 59 then (h, i) else nameScan rest (fnvStep h b) (i + 1)

/-- The `processChunk` scan loop (`for len(data) > chunkOverlap`), with
explicit fuel (fuel at least the byte length always suffices: every
iteration drops at least one byte). The number-parsing block is the
verbatim inline of `parseNumberLE` in the source, modelled by the
function. -/
def chunkGo : Nat → List Nat → CState → CState
  | 0, _, st => st
  | fuel + 1, data, st =>
    if chunkOverlap < data.length then
      let hs := nameScan data 14695981039346656037 0
      let idData := data.take hs.2
      let data1 := data.drop (hs.2 + 1)
      let pr := parseNumberLE (readLE64 data1)
      let data2 := data1.drop (pr.2 + 1)
      chunkGo fuel data2 (stepRecord st hs.1 idData pr.1)
    else st

/-- The final loop of `processChunk` building `result` from the buckets.
Entry keys are pairwise distinct by construction, so the assoc-list first
match renders the Go map writes faithfully. -/
def chunkResult (st : CState) : Table :=
  (List.range nBuckets).flatMap (fun i =>
    (st.buckets i).map (fun e => ((st.ids e.key).getD [], st.meas.getD e.mid (Meas.single 0))))

/-- calc.go `processChunk`. -/
def processChunk (data : List Nat) : Table :=
  chunkResult (chunkGo data.length data initState)

/-! ### parseRow, partitioning, merge, process -/

/-- calc.go `parseRow`; `log.Fatalf` is `none`. The Go guard
`semiPos == -1 || data[len(data)-1] != '\n'` is rendered by the two checks
(an empty slice, which would panic in Go, also yields `none` and is
unreachable from `process`). -/
def parseRow (data : List Nat) : Option Table :=
  match data.findIdx? (fun b => b == 59) with
  | none => none
  | some semiPos =>
    if data.getLast? = some 10 then
      some [(data.take semiPos,
        Meas.single (parseNumber
          ((data.drop (semiPos + 1)).take (data.length - 1 - (semiPos + 1)))))]
    else none

/-- `bytes.LastIndexByte`. -/
def lastIdxByte (bs : List Nat) (c : Nat) : Option Nat :=
  match bs.reverse.findIdx? (fun b => b == c) with
  | none => none
  | some j => some (bs.length - 1 - j)

/-- The chunk-boundary loop of `process` (`for offset < len(data)`), with
fuel; every iteration advances `offset` by at least `chunkSize + 1`, so
fuel `len(data) + 1` always suffices. -/
def chunksGo : Nat → Nat → Nat → Nat → List Nat → List Nat → List Nat
  | 0, _, _, _, _, acc => acc
  | fuel + 1, offset, chunkSize, lro, data, acc =>
    if offset < data.length then
      let offset1 := offset + chunkSize
      if lro ≤ offset1 then acc ++ [lro]
      else
        match ((data.drop offset1).take (lro - offset1)).findIdx? (fun b => b == 10) with
        | none => acc ++ [lro]
        | some nlPos =>
          chunksGo fuel (offset1 + nlPos + 1) chunkSize lro data (acc ++ [offset1 + nlPos + 1])
    else acc

/-- Combine a merged entry into the accumulator entry carrying this name. -/
def updateT : Table → List Nat → Meas → Table
  | [], _, _ => []
  | (n, m) :: rest, name, rm =>
    if n = name then (n, m.combine rm) :: rest else (n, m) :: updateT rest name rm

/-- One step of the merge loop in `process`: adopt an unseen station,
otherwise combine min/max/sum/count. -/
def insertCombine (acc : Table) (e : List Nat × Meas) : Table :=
  match lookupT acc e.1 with
  | none => acc ++ [e]
  | some _ => updateT acc e.1 e.2

/-- Fold one per-chunk result table into the accumulator. -/
def mergeTable (acc : Table) (t : Table) : Table := t.foldl insertCombine acc

/-- The merge loop of `process` over all result tables in order. -/
def mergeAll (ts : List Table) : Table := ts.foldl mergeTable []

/-- calc.go `process`, parameterised by the worker count (Go:
`runtime.NumCPU()`); fatal exits are `none`. The concurrent goroutines are
sequentialised: `results[i]` is chunk `i`, the final slot the last row. -/
def process (data : List Nat) (nChunks : Nat) : Option Table :=
  let chunkSize := data.length / nChunks
  if chunkSize = 0 then none
  else
    match lastIdxByte (data.take (data.length - 1)) 10 with
    | none => parseRow data
    | some p =>
      let lro := p + 1
      let chunks := chunksGo (data.length + 1) 0 chunkSize lro data []
      let chunkTables := ((0 :: chunks).zip chunks).map
        (fun sc => processChunk ((data.drop sc.1).take (sc.2 + chunkOverlap - sc.1)))
      match parseRow (data.drop lro) with
      | none => none
      | some lastT => some (mergeAll (chunkTables ++ [lastT]))

/-! ### The well-formed input grammar and the reference aggregation -/

/-- A record: station name bytes and the temperature literal. -/
abbrev Row := List Nat × Numeral

/-- `name;value\n`. -/
def rowBytes (r : Row) : List Nat := r.1 ++ [59] ++ r.2.bytes ++ [10]

/-- A whole input buffer. -/
def encodeRows (rows : List Row) : List Nat := (rows.map rowBytes).flatten

/-- Station names carry arbitrary bytes except `';'` and `'\n'`. -/
def wfName (n : List Nat) : Prop := ∀ b ∈ n, b < 256 ∧ b ≠ 59 ∧ b ≠ 10

def wfRow (r : Row) : Prop := wfName r.1 ∧ r.2.wf

/-- Spec-side single-pass reference aggregation over the parsed records. -/
def aggregate (rows : List (List Nat × Int)) : Table :=
  rows.foldl (fun acc r => insertCombine acc (r.1, Meas.single r.2)) []

/-- The records denoted by a list of rows. -/
def rowVals (rows : List Row) : List (List Nat × Int) :=
  rows.map (fun r => (r.1, r.2.val))

/-- No two distinct station names of the input collide under FNV-1a
(the correctness assumption stated in the `processChunk` comment). -/
def hashInj (rows : List Row) : Prop :=
  ∀ r1 ∈ rows, ∀ r2 ∈ rows, fnv1a r1.1 = fnv1a r2.1 → r1.1 = r2.1

instance (r : Row) : Decidable (wfRow r) := by
  unfold wfRow wfName; infer_instance

instance (rows : List Row) : Decidable (hashInj rows) := by
  unfold hashInj; infer_instance

/-! ### The output stage of `main` -/

/-- Go string comparison, the `sort.Strings` order: lexicographic by byte
value. -/
def lexLe : List Nat → List Nat → Bool
  | [], _ => true
  | _ :: _, [] => false
  | a :: as, b :: bs => if a < b then true else if b < a then false else lexLe as bs

/-- Insert into a sorted list of names. -/
def insertSorted (x : List Nat) : List (List Nat) → List (List Nat)
  | [] => [x]
  | y :: ys => if lexLe x y then x :: y :: ys else y :: insertSorted x ys

/-- `sort.Strings` on the id slice (modelled as insertion sort). -/
def sortStrings : List (List Nat) → List (List Nat)
  | [] => []
  | x :: xs => insertSorted x (sortStrings xs)

/-- Decimal digits of `n`, most significant first (fuel-based). -/
def natDigitsGo : Nat → Nat → List Nat
  | 0, _ => []
  | fuel + 1, n => if n < 10 then [48 + n] else natDigitsGo fuel (n / 10) ++ [48 + n % 10]

def natDigits (n : Nat) : List Nat := natDigitsGo (n + 1) n

/-- `%.1f` on a value that is an exact multiple of one tenth (every value
`main` prints is `roundJava(y)/10`): optional minus sign, the integer
digits, the dot and the single tenths digit. -/
def fmtF1 (q : ℚ) : List Nat :=
  (if (⌊q * 10⌋ : Int) < 0 then [45] else []) ++
    natDigits ((⌊q * 10⌋ : Int).natAbs / 10) ++ [46, 48 + (⌊q * 10⌋ : Int).natAbs % 10]

/-- One `%s=%.1f/%.1f/%.1f` entry of the output line (61 is `'='`, 47 is
`'/'`). -/
def entryLine (id : List Nat) (m : Meas) : List Nat :=
  id ++ [61] ++ fmtF1 (displayed m).1 ++ [47] ++ fmtF1 (displayed m).2.1 ++ [47] ++
    fmtF1 (displayed m).2.2

/-- The output loop of `main`: print `", "` before every entry but the
first (44 32 are `','` `' '`). -/
def emitEntries (t : Table) (ids : List (List Nat)) : List Nat :=
  (ids.foldl (fun (acc : List Nat × Bool) id =>
    (acc.1 ++ (if acc.2 then [44, 32] else []) ++
      entryLine id ((lookupT t id).getD (Meas.single 0)), true)) ([], false)).1

/-- `main`'s whole output: `{` (123), the sorted entries, `}` (125) and
`Println`'s newline. -/
def emit (t : Table) : List Nat :=
  [123] ++ emitEntries t (sortStrings (t.map Prod.fst)) ++ [125, 10]

/-! ### Row-level parsing lemmas -/

/-- Bytes of a well-formed literal: printable, never `';'` or newline. -/
theorem numeral_bytes_wf (u : Numeral) (hu : u.wf) :
    ∀ b ∈ u.bytes, b < 256 ∧ b ≠ 59 ∧ b ≠ 10 := by
  obtain ⟨h1, h2, h3⟩ := hu
  rcases u with ⟨neg, d1, d2, f⟩
  rcases neg <;> rcases d2 with _ | d <;> intro b hb <;>
    simp_all [Numeral.bytes] <;> omega

theorem numeral_bytes_ne_nil (u : Numeral) : u.bytes ≠ [] := by
  rcases u with ⟨neg, d1, d2, f⟩
  rcases neg <;> rcases d2 with _ | d <;> simp [Numeral.bytes]

theorem numeral_bytes_getLast (u : Numeral) : u.bytes.getLast? = some (48 + u.frac) := by
  rcases u with ⟨neg, d1, d2, f⟩
  rcases neg <;> rcases d2 with _ | d <;> simp [Numeral.bytes]

theorem numeral_bytes_len (u : Numeral) : 3 ≤ u.bytes.length ∧ u.bytes.length ≤ 5 := by
  rcases u with ⟨neg, d1, d2, f⟩
  rcases neg <;> rcases d2 with _ | d <;> simp [Numeral.bytes]

/-- `IndexByte`-style search over a name free of the separator. -/
theorem findIdx_semi (name : List Nat) (rest : List Nat) (h : ∀ b ∈ name, b ≠ 59) :
    (name ++ 59 :: rest).findIdx? (fun b => b == 59) = some name.length := by
  induction name with
  | nil => simp
  | cons a as ih =>
    have ha : a ≠ 59 := h a (by simp)
    have ih2 := ih (fun b hb => h b (by simp [hb]))
    simp only [List.cons_append, List.findIdx?_cons]
    simp [ha, ih2]

/-- The FNV-1a scan stops at the first separator with the name's hash. -/
theorem nameScan_spec (name : List Nat) (rest : List Nat) (h : ∀ b ∈ name, b ≠ 59)
    (h0 i : Nat) :
    nameScan (name ++ 59 :: rest) h0 i = (name.foldl fnvStep h0, i + name.length) := by
  induction name generalizing h0 i with
  | nil => simp [nameScan]
  | cons a as ih =>
    have ha : a ≠ 59 := h a (by simp)
    have ih2 := ih (fun b hb => h b (by simp [hb])) (fnvStep h0 a) (i + 1)
    simp only [List.cons_append, nameScan, ha, if_false, List.append_eq]
    rw [ih2]
    simp only [List.foldl_cons, List.length_cons, Prod.mk.injEq]
    exact ⟨by trivial, by omega⟩

theorem getLast?_drop_of_lt {α : Type} (l : List α) (k : Nat) (h : k < l.length) :
    (l.drop k).getLast? = l.getLast? := by
  conv_rhs => rw [← List.take_append_drop k l]
  rw [List.getLast?_append]
  rcases hdl : l.drop k with _ | ⟨b, bs⟩
  · have hlen : l.length - k = 0 := by
      rw [← List.length_drop, hdl]
      rfl
    omega
  · rcases hgl : (b :: bs).getLast? with _ | v
    · exact absurd hgl (by simp)
    · simp [hgl]

/-- `bytes.LastIndexByte` misses: no such byte. -/
theorem lastIdxByte_eq_none (bs : List Nat) (c : Nat) (h : ∀ b ∈ bs, b ≠ c) :
    lastIdxByte bs c = none := by
  unfold lastIdxByte
  have : bs.reverse.findIdx? (fun b => b == c) = none := by
    rw [List.findIdx?_eq_none_iff]
    intro x hx
    simp [h x (List.mem_reverse.mp hx)]
  rw [this]

theorem lastIdxByte_lt (bs : List Nat) (c j : Nat) (h : lastIdxByte bs c = some j) :
    j < bs.length := by
  unfold lastIdxByte at h
  rcases hf : bs.reverse.findIdx? (fun b => b == c) with _ | i
  · rw [hf] at h; exact absurd h (by simp)
  · rw [hf] at h
    have hi := List.findIdx?_eq_some_iff_findIdx_eq.mp hf
    have : i < bs.reverse.length := hi.1
    simp at this h
    omega

/-- `parseRow` rejects any slice that does not end in a newline. -/
theorem parseRow_none_of_last (data : List Nat) (h : data.getLast? ≠ some 10) :
    parseRow data = none := by
  unfold parseRow
  rcases hf : data.findIdx? (fun b => b == 59) with _ | s
  · rfl
  · simp [h]

/-- `parseRow` on one well-formed record. -/
theorem parseRow_rowBytes (r : Row) (hr : wfRow r) :
    parseRow (rowBytes r) = some [(r.1, Meas.single r.2.val)] := by
  obtain ⟨hn, hu⟩ := hr
  have hsemi : (r.1 ++ [59] ++ r.2.bytes ++ [10]).findIdx? (fun b => b == 59) =
      some r.1.length := by
    have : r.1 ++ [59] ++ r.2.bytes ++ [10] = r.1 ++ 59 :: (r.2.bytes ++ [10]) := by simp
    rw [this, findIdx_semi r.1 _ (fun b hb => (hn b hb).2.1)]
  have hlast : (r.1 ++ [59] ++ r.2.bytes ++ [10]).getLast? = some 10 := by
    have : r.1 ++ [59] ++ r.2.bytes ++ [10] = (r.1 ++ [59] ++ r.2.bytes) ++ [10] := by simp
    rw [this, List.getLast?_concat]
  unfold parseRow rowBytes
  simp only [hsemi, hlast, reduceIte]
  have hdrop : (r.1 ++ [59] ++ r.2.bytes ++ [10]).drop (r.1.length + 1) =
      r.2.bytes ++ [10] := by
    have : r.1 ++ [59] ++ r.2.bytes ++ [10] = (r.1 ++ [59]) ++ (r.2.bytes ++ [10]) := by simp
    rw [this]
    have hlen : (r.1 ++ [59]).length = r.1.length + 1 := by simp
    rw [← hlen, List.drop_left]
  rw [hdrop]
  have hlen2 : (r.1 ++ [59] ++ r.2.bytes ++ [10]).length - 1 - (r.1.length + 1) =
      r.2.bytes.length := by simp [List.length_append]; omega
  rw [hlen2]
  have htake : (r.2.bytes ++ [10]).take r.2.bytes.length = r.2.bytes := by
    rw [List.take_left]
  rw [htake]
  have htk : (r.1 ++ [59] ++ r.2.bytes ++ [10]).take r.1.length = r.1 := by
    have : r.1 ++ [59] ++ r.2.bytes ++ [10] = r.1 ++ ([59] ++ r.2.bytes ++ [10]) := by simp
    rw [this, List.take_left]
  rw [htk, parseNumber_bytes r.2 hu]

theorem encodeRows_cons (r : Row) (rows : List Row) :
    encodeRows (r :: rows) = rowBytes r ++ encodeRows rows := by
  simp [encodeRows]

theorem encodeRows_append (xs ys : List Row) :
    encodeRows (xs ++ ys) = encodeRows xs ++ encodeRows ys := by
  simp [encodeRows]

theorem rowBytes_len (r : Row) : rowBytes r = r.1 ++ [59] ++ r.2.bytes ++ [10] := rfl

/-- Every byte of a well-formed row except the terminator differs from 10. -/
theorem rowBytes_sans_nl (r : Row) (hr : wfRow r) :
    ∀ b ∈ r.1 ++ [59] ++ r.2.bytes, b ≠ 10 := by
  intro b hb
  simp only [List.append_assoc, List.mem_append, List.mem_singleton] at hb
  rcases hb with hb | hb | hb
  · exact (hr.1 b hb).2.2
  · omega
  · exact (numeral_bytes_wf r.2 hr.2 b hb).2.2

/-- `process` on a buffer with exactly one record: the single-row direct
path through `parseRow`. -/
theorem process_single (r : Row) (hr : wfRow r) (n : Nat)
    (hn : (rowBytes r).length / n ≠ 0) :
    process (rowBytes r) n = some [(r.1, Meas.single r.2.val)] := by
  simp only [process]
  rw [if_neg hn]
  have hsplit : rowBytes r = (r.1 ++ [59] ++ r.2.bytes) ++ [10] := by
    simp [rowBytes]
  have hlen : (rowBytes r).length - 1 = (r.1 ++ [59] ++ r.2.bytes).length := by
    rw [hsplit]; simp
  have htake : (rowBytes r).take ((rowBytes r).length - 1) = r.1 ++ [59] ++ r.2.bytes := by
    rw [hlen]
    conv_lhs => rw [hsplit]
    rw [List.take_left]
  have hnone : lastIdxByte ((rowBytes r).take ((rowBytes r).length - 1)) 10 = none := by
    rw [htake]
    exact lastIdxByte_eq_none _ _ (rowBytes_sans_nl r hr)
  simp only [hnone]
  exact parseRow_rowBytes r hr

/-- Any buffer not ending in a newline dies in `parseRow`, whichever branch
of `process` reaches it. -/
theorem process_none_of_no_trailing_nl (data : List Nat) (hlast : data.getLast? ≠ some 10)
    (n : Nat) : process data n = none := by
  by_cases hcs : data.length / n = 0
  · simp only [process]
    rw [if_pos hcs]
  · simp only [process]
    rw [if_neg hcs]
    rcases hli : lastIdxByte (data.take (data.length - 1)) 10 with _ | p
    · simp only [hli]
      exact parseRow_none_of_last data hlast
    · simp only [hli]
      have hp := lastIdxByte_lt _ _ _ hli
      rw [List.length_take] at hp
      have hp2 : p + 1 < data.length := by omega
      rw [parseRow_none_of_last (data.drop (p + 1))
        (by rw [getLast?_drop_of_lt _ _ hp2]; exact hlast)]

/-- C7 counterexample: a well-formed single-record buffer of 6 bytes with
worker count 7 makes `chunkSize` zero and the run fatal, against the claim
that every `N ≥ 1` succeeds. -/
theorem c7_counterexample :
    wfRow ([97], ⟨false, 1, none, 2⟩) ∧ (1 : Nat) ≤ 7 ∧
      process (rowBytes ([97], ⟨false, 1, none, 2⟩)) 7 = none :=
  ⟨by decide, by decide, by decide⟩

/-- C7 (amended): for every single-record buffer and worker count `N` whose
chunk size `len/N` is nonzero, `process` bypasses partitioning and returns
that station with min = max = sum = value and count = 1. -/
theorem c7_single_record (r : Row) (hr : wfRow r) (n : Nat)
    (hn : (rowBytes r).length / n ≠ 0) :
    process (rowBytes r) n = some [(r.1, Meas.single r.2.val)] :=
  process_single r hr n hn

theorem c7_single_record_witness :
    (wfRow ([97], ⟨false, 1, none, 2⟩) ∧
        (rowBytes ([97], ⟨false, 1, none, 2⟩)).length / 2 ≠ 0) ∧
      process (rowBytes ([97], ⟨false, 1, none, 2⟩)) 2 =
        some [([97], Meas.single (Numeral.val ⟨false, 1, none, 2⟩))] :=
  ⟨⟨by decide, by decide⟩,
    c7_single_record ([97], ⟨false, 1, none, 2⟩) (by decide) 2 (by decide)⟩

/-- C6 counterexample: dropping the trailing newline of a valid two-record
input makes the run fatal (`none`), while the same input with the newline
is accepted; the claim said both are accepted with equal results. -/
theorem c6_counterexample :
    process [97, 59, 49, 46, 50, 10, 98, 59, 51, 46, 52] 1 = none ∧
      process [97, 59, 49, 46, 50, 10, 98, 59, 51, 46, 52, 10] 1 ≠ none := by
  constructor
  · decide
  · decide

/-- C6 (amended): for every otherwise-valid input whose last line omits the
trailing newline, the run terminates fatally: `parseRow` requires the final
byte to be a newline, so the final record is treated as an error, not
accepted. -/
theorem c6_no_trailing_newline_fatal (rows : List Row) (hw : ∀ r ∈ rows, wfRow r)
    (hne : rows ≠ []) (n : Nat) :
    process (encodeRows rows).dropLast n = none := by
  rcases List.eq_nil_or_concat rows with rfl | ⟨init, r, rfl⟩
  · exact absurd rfl hne
  · simp only [List.concat_eq_append] at hw ⊢
    have hr : wfRow r := hw r (by simp)
    have henc : encodeRows (init ++ [r]) =
        (encodeRows init ++ (r.1 ++ [59] ++ r.2.bytes)) ++ [10] := by
      rw [encodeRows_append]
      simp [encodeRows, rowBytes]
    have hdl : (encodeRows (init ++ [r])).dropLast =
        encodeRows init ++ (r.1 ++ [59] ++ r.2.bytes) := by
      rw [henc, List.dropLast_concat]
    have hlast : (encodeRows init ++ (r.1 ++ [59] ++ r.2.bytes)).getLast? =
        some (48 + r.2.frac) := by
      rw [List.getLast?_append, List.getLast?_append]
      rw [numeral_bytes_getLast]
      rfl
    rw [hdl]
    apply process_none_of_no_trailing_nl
    rw [hlast]
    simp only [ne_eq, Option.some.injEq]
    omega

theorem c6_no_trailing_newline_fatal_witness :
    ((∀ r ∈ [(([97], ⟨false, 1, none, 2⟩) : Row), ([98], ⟨false, 3, none, 4⟩)], wfRow r) ∧
        ([(([97], ⟨false, 1, none, 2⟩) : Row), ([98], ⟨false, 3, none, 4⟩)] : List Row) ≠ []) ∧
      process (encodeRows [(([97], ⟨false, 1, none, 2⟩) : Row), ([98], ⟨false, 3, none, 4⟩)]).dropLast 1 = none :=
  ⟨⟨by decide, by decide⟩,
    c6_no_trailing_newline_fatal [([97], ⟨false, 1, none, 2⟩), ([98], ⟨false, 3, none, 4⟩)]
      (by decide) (by decide) 1⟩

/-- C8 counterexample: an input whose first record carries the structurally
malformed value `9999` (matching no `-?[0-9]{1,2}.[0-9]` form) does NOT
terminate the run fatally: `process` completes and produces output; the
chunk scan has no validation (see also the amended statement). -/
theorem c8_counterexample :
    process [97, 59, 57, 57, 57, 57, 10, 98, 59, 49, 46, 49, 10] 1 ≠ none := by
  decide

/-- C8 (amended): structural validation happens only on the `parseRow`
path (single-record buffers and the final row), where a missing separator
or a missing trailing newline terminates the run fatally; records scanned
inside a chunk are assumed valid and a malformed value there is folded in
silently. -/
theorem c8_parseRow_validates (data : List Nat)
    (h : (∀ b ∈ data, b ≠ 59) ∨ data.getLast? ≠ some 10) :
    parseRow data = none := by
  rcases h with h | h
  · unfold parseRow
    have hf : data.findIdx? (fun b => b == 59) = none := by
      rw [List.findIdx?_eq_none_iff]
      intro x hx
      simp [h x hx]
    rw [hf]
  · exact parseRow_none_of_last data h

theorem c8_parseRow_validates_witness :
    ((∀ b ∈ [97, 59, 49, 46, 50], b ≠ 59) ∨ [97, 59, 49, 46, 50].getLast? ≠ some 10) ∧
      parseRow [97, 59, 49, 46, 50] = none :=
  ⟨Or.inr (by decide), c8_parseRow_validates [97, 59, 49, 46, 50] (Or.inr (by decide))⟩

/-! ### Merge reducer lemmas -/

/-- Pointwise combination on optional measurements: what one name
contributes through the merge. -/
def optCombine (o p : Option Meas) : Option Meas :=
  match o, p with
  | none, p => p
  | some m, none => some m
  | some m, some rm => some (m.combine rm)

theorem optCombine_none_right (o : Option Meas) : optCombine o none = o := by
  cases o <;> rfl

theorem combine_comm (m r : Meas) : m.combine r = r.combine m := by
  rcases m with ⟨a, b, c, d⟩
  rcases r with ⟨e, f, g, h⟩
  simp only [Meas.combine, Meas.mk.injEq]
  refine ⟨?_, ?_, ?_, ?_⟩ <;> omega

theorem combine_assoc (m r s : Meas) : (m.combine r).combine s = m.combine (r.combine s) := by
  rcases m with ⟨a, b, c, d⟩
  rcases r with ⟨e, f, g, h⟩
  rcases s with ⟨i, j, k, l⟩
  simp only [Meas.combine, Meas.mk.injEq]
  refine ⟨?_, ?_, ?_, ?_⟩ <;> omega

theorem optCombine_assoc (a b c : Option Meas) :
    optCombine (optCombine a b) c = optCombine a (optCombine b c) := by
  cases a <;> cases b <;> cases c <;> simp [optCombine, combine_assoc]

theorem optCombine_right_comm (a b c : Option Meas) :
    optCombine (optCombine a b) c = optCombine (optCombine a c) b := by
  rcases a with _ | ⟨a1, a2, a3, a4⟩ <;> rcases b with _ | ⟨b1, b2, b3, b4⟩ <;>
    rcases c with _ | ⟨c1, c2, c3, c4⟩ <;>
      first
      | rfl
      | (simp only [optCombine, Meas.combine, Option.some.injEq, Meas.mk.injEq]
         refine ⟨?_, ?_, ?_, ?_⟩ <;> omega)

theorem lookupT_nil (n : List Nat) : lookupT [] n = none := rfl

theorem lookupT_cons (e : List Nat × Meas) (t : Table) (n : List Nat) :
    lookupT (e :: t) n = if e.1 = n then some e.2 else lookupT t n := by
  unfold lookupT
  rw [List.find?_cons]
  by_cases he : e.1 = n
  · have hb : (e.1 == n) = true := by simp [he]
    rw [hb, if_pos he]
    rfl
  · have hb : (e.1 == n) = false := by simp [he]
    rw [hb, if_neg he]

theorem lookupT_eq_none_of_not_mem (t : Table) (n : List Nat)
    (h : n ∉ t.map Prod.fst) : lookupT t n = none := by
  induction t with
  | nil => rfl
  | cons e t ih =>
    rw [lookupT_cons]
    simp only [List.map_cons, List.mem_cons] at h
    push_neg at h
    rw [if_neg (fun he => h.1 he.symm)]
    exact ih h.2

theorem lookupT_append_single (acc : Table) (e : List Nat × Meas) (n : List Nat) :
    lookupT (acc ++ [e]) n =
      match lookupT acc n with
      | some m => some m
      | none => if e.1 = n then some e.2 else none := by
  induction acc with
  | nil =>
    rw [List.nil_append, lookupT_cons, lookupT_nil]
  | cons a acc ih =>
    rw [List.cons_append, lookupT_cons, lookupT_cons]
    by_cases ha : a.1 = n
    · simp [ha]
    · simp only [ha, if_false]
      exact ih

theorem lookupT_updateT (acc : Table) (name : List Nat) (rm : Meas) (n : List Nat) :
    lookupT (updateT acc name rm) n =
      if n = name then (lookupT acc n).map (fun m => m.combine rm) else lookupT acc n := by
  induction acc with
  | nil =>
    unfold updateT
    by_cases h : n = name <;> simp [lookupT_nil, h]
  | cons a acc ih =>
    rcases a with ⟨a1, a2⟩
    simp only [updateT]
    by_cases h1 : a1 = name
    · rw [if_pos h1, lookupT_cons, lookupT_cons]
      by_cases h2 : a1 = n
      · have hn : n = name := h2.symm.trans h1
        rw [if_pos h2, if_pos hn, if_pos h2]
        rfl
      · have hn : ¬n = name := fun he => h2 (h1.trans he.symm)
        rw [if_neg h2, if_neg hn, if_neg h2]
    · rw [if_neg h1, lookupT_cons, lookupT_cons]
      by_cases h2 : a1 = n
      · have hn : ¬n = name := fun he => h1 (h2.trans he)
        rw [if_pos h2, if_neg hn, if_pos h2]
      · rw [if_neg h2, if_neg h2, ih]

theorem lookupT_insertCombine (acc : Table) (e : List Nat × Meas) (n : List Nat) :
    lookupT (insertCombine acc e) n =
      if n = e.1 then optCombine (lookupT acc n) (some e.2) else lookupT acc n := by
  unfold insertCombine
  rcases hl : lookupT acc e.1 with _ | m
  · rw [lookupT_append_single]
    by_cases hn : n = e.1
    · subst hn
      rw [hl]
      simp [optCombine]
    · rcases hln : lookupT acc n with _ | m2
      · simp only [hln]
        rw [if_neg (fun he => hn he.symm), if_neg hn]
      · simp only [hln]
        rw [if_neg hn]
  · rw [lookupT_updateT]
    by_cases hn : n = e.1
    · subst hn
      rw [if_pos rfl, if_pos rfl, hl]
      rfl
    · rw [if_neg hn, if_neg hn]

theorem lookupT_mergeTable (acc t : Table) (n : List Nat)
    (hnd : (t.map Prod.fst).Nodup) :
    lookupT (mergeTable acc t) n = optCombine (lookupT acc n) (lookupT t n) := by
  induction t generalizing acc with
  | nil =>
    rw [lookupT_nil, optCombine_none_right]
    rfl
  | cons e t ih =>
    simp only [List.map_cons, List.nodup_cons] at hnd
    have step : mergeTable acc (e :: t) = mergeTable (insertCombine acc e) t := rfl
    rw [step, ih (insertCombine acc e) hnd.2, lookupT_insertCombine, lookupT_cons]
    by_cases hn : n = e.1
    · subst hn
      rw [lookupT_eq_none_of_not_mem t e.1 hnd.1, if_pos rfl, if_pos rfl,
        optCombine_none_right]
    · rw [if_neg hn, if_neg (fun h => hn h.symm)]

theorem lookupT_foldl_mergeTable (ts : List Table) (acc : Table) (n : List Nat)
    (hnd : ∀ t ∈ ts, (t.map Prod.fst).Nodup) :
    lookupT (ts.foldl mergeTable acc) n =
      ts.foldl (fun o t => optCombine o (lookupT t n)) (lookupT acc n) := by
  induction ts generalizing acc with
  | nil => rfl
  | cons t ts ih =>
    rw [List.foldl_cons, List.foldl_cons, ih _ (fun u hu => hnd u (by simp [hu])),
      lookupT_mergeTable acc t n (hnd t (by simp))]

/-- What each name sees after the full merge: the pointwise `optCombine`
fold over the per-chunk lookups, provided each table has distinct keys. -/
theorem lookupT_mergeAll (ts : List Table) (n : List Nat)
    (hnd : ∀ t ∈ ts, (t.map Prod.fst).Nodup) :
    lookupT (mergeAll ts) n = ts.foldl (fun o t => optCombine o (lookupT t n)) none := by
  have h := lookupT_foldl_mergeTable ts [] n hnd
  simpa using h

/-- C4: folding the per-chunk result tables into the accumulator in any
permutation yields the same final station-to-stats mapping, because min,
max and the two sums are commutative and associative. -/
theorem c4_merge_order_independent (ts1 ts2 : List Table) (hp : ts1.Perm ts2)
    (hnd : ∀ t ∈ ts1, (t.map Prod.fst).Nodup) :
    tableEquiv (mergeAll ts1) (mergeAll ts2) := by
  intro n
  rw [lookupT_mergeAll ts1 n hnd,
    lookupT_mergeAll ts2 n (fun t ht => hnd t (hp.mem_iff.mpr ht))]
  exact hp.foldl_eq' (fun x _ y _ z => optCombine_right_comm z (lookupT x n) (lookupT y n)) none

theorem c4_merge_order_independent_witness :
    (([[([97], Meas.single 12)], [([98], Meas.single 34)]] : List Table).Perm
        [[([98], Meas.single 34)], [([97], Meas.single 12)]] ∧
      (∀ t ∈ ([[([97], Meas.single 12)], [([98], Meas.single 34)]] : List Table),
        (t.map Prod.fst).Nodup)) ∧
      tableEquiv (mergeAll [[([97], Meas.single 12)], [([98], Meas.single 34)]])
        (mergeAll [[([98], Meas.single 34)], [([97], Meas.single 12)]]) :=
  ⟨⟨by decide, by decide⟩,
    c4_merge_order_independent [[([97], Meas.single 12)], [([98], Meas.single 34)]]
      [[([98], Meas.single 34)], [([97], Meas.single 12)]] (by decide) (by decide)⟩

/-! ### Little-endian decomposition and the chunk scan on encoded rows -/

/-- Little-endian value of a whole byte list. -/
def leBytes (bs : List Nat) : Nat := bs.foldr (fun b acc => b + 256 * acc) 0

theorem readLE64_eq_leBytes (bs : List Nat) : readLE64 bs = leBytes (bs.take 8) := rfl

theorem leBytes_append (xs ys : List Nat) :
    leBytes (xs ++ ys) = leBytes xs + 256 ^ xs.length * leBytes ys := by
  induction xs with
  | nil => simp [leBytes]
  | cons a xs ih =>
    simp only [leBytes, List.foldr_cons, List.cons_append, List.length_cons] at ih ⊢
    rw [ih]
    ring

theorem leBytes_lt (bs : List Nat) (h : ∀ b ∈ bs, b < 256) :
    leBytes bs < 256 ^ bs.length := by
  induction bs with
  | nil => simp [leBytes]
  | cons a bs ih =>
    have h1 : a < 256 := h a (by simp)
    have h2 := ih (fun b hb => h b (by simp [hb]))
    simp only [leBytes, List.foldr_cons, List.length_cons] at h2 ⊢
    calc a + 256 * List.foldr (fun b acc => b + 256 * acc) 0 bs
        < 256 * (List.foldr (fun b acc => b + 256 * acc) 0 bs + 1) := by omega
      _ ≤ 256 * 256 ^ bs.length := Nat.mul_le_mul_left 256 (by omega)
      _ = 256 ^ (bs.length + 1) := by ring

/-- The word read at a numeral boundary: the numeral in the low bytes, the
following bytes above it. -/
theorem parseNumberLE_at (u : Numeral) (hu : u.wf) (rest : List Nat)
    (hrest : ∀ b ∈ rest, b < 256) :
    parseNumberLE (readLE64 (u.bytes ++ rest)) = (u.val, u.bytes.length) := by
  have hL := numeral_bytes_len u
  have hdec : readLE64 (u.bytes ++ rest) =
      readLE64 u.bytes +
        2 ^ (8 * u.bytes.length) * leBytes (rest.take (8 - u.bytes.length)) := by
    rw [readLE64_eq_leBytes, readLE64_eq_leBytes, List.take_append_eq_append_take,
      List.take_of_length_le (show u.bytes.length ≤ 8 by omega), leBytes_append]
    congr 1
    rw [show (256 : Nat) = 2 ^ 8 from rfl, ← pow_mul]
  have hbound : leBytes (rest.take (8 - u.bytes.length)) <
      2 ^ (64 - 8 * u.bytes.length) := by
    have hlt := leBytes_lt (rest.take (8 - u.bytes.length))
      (fun b hb => hrest b (List.mem_of_mem_take hb))
    have hlen : (rest.take (8 - u.bytes.length)).length ≤ 8 - u.bytes.length := by
      rw [List.length_take]
      omega
    have hmono : (256 : Nat) ^ (rest.take (8 - u.bytes.length)).length ≤
        256 ^ (8 - u.bytes.length) := Nat.pow_le_pow_right (by norm_num) hlen
    have hexp : (256 : Nat) ^ (8 - u.bytes.length) = 2 ^ (64 - 8 * u.bytes.length) := by
      rw [show (256 : Nat) = 2 ^ 8 from rfl, ← pow_mul]
      congr 1
      omega
    omega
  rw [hdec]
  exact parseNumberLE_general u hu _ hbound

/-- One row folded into the chunk table: hash of the name, the name bytes,
the scaled value. -/
def stepRow (st : CState) (r : Row) : CState :=
  stepRecord st (fnv1a r.1) r.1 r.2.val

theorem encodeRows_bytes_lt (rows : List Row) (hw : ∀ r ∈ rows, wfRow r) :
    ∀ b ∈ encodeRows rows, b < 256 := by
  intro b hb
  simp only [encodeRows, List.mem_flatten, List.mem_map] at hb
  obtain ⟨bs, ⟨r, hr, rfl⟩, hbbs⟩ := hb
  rw [rowBytes_len] at hbbs
  simp only [List.append_assoc, List.mem_append, List.mem_singleton] at hbbs
  rcases hbbs with h | h | h | h
  · exact ((hw r hr).1 b h).1
  · omega
  · exact (numeral_bytes_wf r.2 (hw r hr).2 b h).1
  · omega

/-- The scan loop consumes exactly the encoded rows, folding each into the
table, and stops on the 4 overlap bytes. -/
theorem chunkGo_encode (rows : List Row) (tail : List Nat) (st : CState) (fuel : Nat)
    (hw : ∀ r ∈ rows, wfRow r) (htail : tail.length = 4) (htb : ∀ b ∈ tail, b < 256)
    (hfuel : (encodeRows rows ++ tail).length ≤ fuel) :
    chunkGo fuel (encodeRows rows ++ tail) st = rows.foldl stepRow st := by
  induction rows generalizing st fuel with
  | nil =>
    simp only [encodeRows, List.map_nil, List.flatten_nil, List.nil_append, List.foldl_nil]
    cases fuel with
    | zero => rfl
    | succ f =>
      simp only [chunkGo]
      rw [if_neg (by simp [chunkOverlap, htail])]
  | cons r rows ih =>
    have hwr : wfRow r := hw r (by simp)
    have hlen5 : 5 ≤ (rowBytes r).length := by
      rw [rowBytes_len]
      have := numeral_bytes_len r.2
      simp only [List.length_append, List.length_cons, List.length_nil, List.length_singleton]
      omega
    have hdata : encodeRows (r :: rows) ++ tail =
        r.1 ++ 59 :: (r.2.bytes ++ ([10] ++ (encodeRows rows ++ tail))) := by
      rw [encodeRows_cons, rowBytes_len]
      simp
    cases fuel with
    | zero =>
      exfalso
      rw [encodeRows_cons] at hfuel
      simp only [List.length_append] at hfuel
      omega
    | succ f =>
      simp only [chunkGo]
      rw [if_pos (by
        rw [encodeRows_cons]
        simp only [chunkOverlap, List.length_append]
        omega)]
      rw [hdata]
      rw [nameScan_spec r.1 _ (fun b hb => (hwr.1 b hb).2.1)]
      have htake : (r.1 ++ 59 :: (r.2.bytes ++ ([10] ++ (encodeRows rows ++ tail)))).take
          ((14695981039346656037, 0 + r.1.length).2) = r.1 := by
        simp only [Prod.snd]
        rw [Nat.zero_add, List.take_append_eq_append_take, List.take_of_length_le (le_refl _),
          Nat.sub_self, List.take_zero, List.append_nil]
      have hdrop : (r.1 ++ 59 :: (r.2.bytes ++ ([10] ++ (encodeRows rows ++ tail)))).drop
          ((14695981039346656037, 0 + r.1.length).2 + 1) =
          r.2.bytes ++ ([10] ++ (encodeRows rows ++ tail)) := by
        simp only [Prod.snd]
        rw [Nat.zero_add, show r.1.length + 1 = (r.1 ++ [59]).length by simp]
        rw [show r.1 ++ 59 :: (r.2.bytes ++ ([10] ++ (encodeRows rows ++ tail))) =
          (r.1 ++ [59]) ++ (r.2.bytes ++ ([10] ++ (encodeRows rows ++ tail))) by simp]
        rw [List.drop_left]
      rw [htake, hdrop]
      have hrestb : ∀ b ∈ [10] ++ (encodeRows rows ++ tail), b < 256 := by
        intro b hb
        simp only [List.mem_append, List.mem_singleton] at hb
        rcases hb with h | h | h
        · omega
        · exact encodeRows_bytes_lt rows (fun x hx => hw x (by simp [hx])) b h
        · exact htb b h
      rw [parseNumberLE_at r.2 hwr.2 _ hrestb]
      have hdrop2 : (r.2.bytes ++ ([10] ++ (encodeRows rows ++ tail))).drop
          ((Numeral.val r.2, r.2.bytes.length).2 + 1) = encodeRows rows ++ tail := by
        simp only [Prod.snd]
        rw [show r.2.bytes.length + 1 = (r.2.bytes ++ [10]).length by simp]
        rw [show r.2.bytes ++ ([10] ++ (encodeRows rows ++ tail)) =
          (r.2.bytes ++ [10]) ++ (encodeRows rows ++ tail) by simp]
        rw [List.drop_left]
      rw [hdrop2]
      have hfuel2 : (encodeRows rows ++ tail).length ≤ f := by
        rw [encodeRows_cons] at hfuel
        simp only [List.length_append] at hfuel ⊢
        omega
      rw [ih _ f (fun x hx => hw x (by simp [hx])) hfuel2]
      rfl

/-! ### The chunk hash table refines the reference aggregation -/

theorem modifyAt_length {α : Type} (l : List α) (i : Nat) (f : α → α) :
    (modifyAt l i f).length = l.length := by
  induction l generalizing i with
  | nil => rfl
  | cons a l ih =>
    cases i with
    | zero => rfl
    | succ i => simp [modifyAt, ih]

theorem getElem?_modifyAt_self {α : Type} (l : List α) (i : Nat) (f : α → α) :
    (modifyAt l i f)[i]? = (l[i]?).map f := by
  induction l generalizing i with
  | nil => simp [modifyAt]
  | cons a l ih =>
    cases i with
    | zero => simp [modifyAt]
    | succ i => simpa [modifyAt] using ih i

theorem getElem?_modifyAt_ne {α : Type} (l : List α) (i : Nat) (f : α → α) (j : Nat)
    (h : j ≠ i) : (modifyAt l i f)[j]? = l[j]? := by
  induction l generalizing i j with
  | nil => simp [modifyAt]
  | cons a l ih =>
    cases i with
    | zero =>
      cases j with
      | zero => exact absurd rfl h
      | succ j => simp [modifyAt]
    | succ i =>
      cases j with
      | zero => simp [modifyAt]
      | succ j => simpa [modifyAt] using ih i j (fun he => h (by omega))

theorem combine_single (m : Meas) (v : Int) : m.combine (Meas.single v) = m.add1 v := by
  rcases m with ⟨a, b, c, d⟩
  simp [Meas.combine, Meas.single, Meas.add1]

theorem rowVals_fst (rows : List Row) :
    (rowVals rows).map Prod.fst = rows.map Prod.fst := by
  simp [rowVals]

theorem aggregate_snoc (rows : List (List Nat × Int)) (x : List Nat × Int) :
    aggregate (rows ++ [x]) = insertCombine (aggregate rows) (x.1, Meas.single x.2) := by
  unfold aggregate
  rw [List.foldl_append]
  rfl

theorem rowVals_snoc (rows : List Row) (r : Row) :
    rowVals (rows ++ [r]) = rowVals rows ++ [(r.1, r.2.val)] := by
  simp [rowVals]

theorem lookupT_aggregate_none (rows : List (List Nat × Int)) (n : List Nat)
    (h : n ∉ rows.map Prod.fst) : lookupT (aggregate rows) n = none := by
  apply lookupT_eq_none_of_not_mem
  intro hmem
  apply h
  -- keys of the aggregate are among the row names
  clear h
  unfold aggregate at hmem
  suffices hgen : ∀ acc : Table, n ∈ (rows.foldl (fun acc r =>
      insertCombine acc (r.1, Meas.single r.2)) acc).map Prod.fst →
      n ∈ acc.map Prod.fst ∨ n ∈ rows.map Prod.fst by
    rcases hgen [] hmem with h | h
    · simp at h
    · exact h
  clear hmem
  induction rows with
  | nil => intro acc h; exact Or.inl h
  | cons r rows ih =>
    intro acc h
    rcases ih (insertCombine acc (r.1, Meas.single r.2)) h with h2 | h2
    · unfold insertCombine at h2
      rcases hl : lookupT acc r.1 with _ | m
      · rw [hl] at h2
        simp only [List.map_append, List.mem_append] at h2
        rcases h2 with h3 | h3
        · exact Or.inl h3
        · simp at h3
          subst h3
          exact Or.inr (by simp)
      · rw [hl] at h2
        -- updateT keeps the key set
        have hkeys : ∀ (t : Table) (name : List Nat) (rm : Meas),
            (updateT t name rm).map Prod.fst = t.map Prod.fst := by
          intro t name rm
          induction t with
          | nil => rfl
          | cons a t iht =>
            rcases a with ⟨a1, a2⟩
            unfold updateT
            by_cases ha : a1 = name
            · rw [if_pos ha]
              simp
            · rw [if_neg ha]
              simp [iht]
        rw [hkeys] at h2
        exact Or.inl h2
    · exact Or.inr (by simp [h2])

/-- The invariant tying the `processChunk` table state after scanning
`rows` to the reference aggregation of those rows. -/
structure Inv (st : CState) (rows : List Row) : Prop where
  bucketOf : ∀ j, ∀ e ∈ st.buckets j, e.key &&& (nBuckets - 1) = j
  keysND : ∀ j, ((st.buckets j).map Entry.key).Nodup
  complete : ∀ r ∈ rows, ∃ j, ∃ e ∈ st.buckets j, e.key = fnv1a r.1
  sound : ∀ j, ∀ e ∈ st.buckets j, ∃ name m,
    st.ids e.key = some name ∧ fnv1a name = e.key ∧ name ∈ rows.map Prod.fst ∧
    st.meas[e.mid]? = some m ∧ lookupT (aggregate (rowVals rows)) name = some m
  midLt : ∀ j, ∀ e ∈ st.buckets j, e.mid < st.meas.length
  midKey : ∀ j j2, ∀ e ∈ st.buckets j, ∀ e2 ∈ st.buckets j2, e.mid = e2.mid → e.key = e2.key

theorem inv_init : Inv initState [] := by
  refine ⟨?_, ?_, ?_, ?_, ?_, ?_⟩ <;> simp [initState]

theorem getM_none_iff (st : CState) (k : Nat)
    (hb : ∀ j, ∀ e ∈ st.buckets j, e.key &&& (nBuckets - 1) = j) :
    getM st k = none ↔ ∀ j, ∀ e ∈ st.buckets j, e.key ≠ k := by
  unfold getM
  constructor
  · intro h j e he hk
    simp only [Option.map_eq_none', List.find?_eq_none] at h
    have hj : j = k &&& (nBuckets - 1) := by rw [← hk]; exact (hb j e he).symm
    subst hj
    have := h e he
    simp [hk] at this
  · intro h
    simp only [Option.map_eq_none', List.find?_eq_none]
    intro e he
    simp only [beq_iff_eq]
    exact h _ e he

theorem getM_some (st : CState) (k mid : Nat) (h : getM st k = some mid) :
    ∃ e ∈ st.buckets (k &&& (nBuckets - 1)), e.key = k ∧ e.mid = mid := by
  unfold getM at h
  rcases hf : (st.buckets (k &&& (nBuckets - 1))).find? (fun e => e.key == k) with _ | e
  · rw [hf] at h; exact absurd h (by simp)
  · rw [hf] at h
    simp only [Option.map_some'] at h
    refine ⟨e, List.mem_of_find?_eq_some hf, ?_, ?_⟩
    · have := List.find?_some hf
      simpa using this
    · simpa using h

/-- One scan step preserves the invariant (the heart of `processChunk`
correctness). Hash injectivity over the rows seen so far is the assumption
the source states as "This assumes no collisions of id hashes." -/
theorem stepRow_inv (rows : List Row) (r : Row) (st : CState)
    (hinj : hashInj (rows ++ [r])) (hinv : Inv st rows) :
    Inv (stepRow st r) (rows ++ [r]) := by
  obtain ⟨hb, hnd, hc, hs, hml, hmk⟩ := hinv
  have hA : aggregate (rowVals (rows ++ [r])) =
      insertCombine (aggregate (rowVals rows)) (r.1, Meas.single r.2.val) := by
    rw [rowVals_snoc, aggregate_snoc]
  unfold stepRow stepRecord
  rcases hg : getM st (fnv1a r.1) with _ | mid
  · -- first occurrence of this hash: putMeasurement + ids assignment
    show Inv (setId (putM st (fnv1a r.1) (Meas.single r.2.val)) (fnv1a r.1) r.1) (rows ++ [r])
    have hfresh : ∀ j, ∀ e ∈ st.buckets j, e.key ≠ fnv1a r.1 :=
      (getM_none_iff st (fnv1a r.1) hb).mp hg
    have hnotin : r.1 ∉ rows.map Prod.fst := by
      intro hmem
      simp only [List.mem_map] at hmem
      obtain ⟨r0, hr0, hfst⟩ := hmem
      obtain ⟨j, e, he, hek⟩ := hc r0 hr0
      exact hfresh j e he (by rw [hek, hfst])
    have hlookA : lookupT (aggregate (rowVals rows)) r.1 = none :=
      lookupT_aggregate_none _ _ (by rw [rowVals_fst]; exact hnotin)
    refine ⟨?_, ?_, ?_, ?_, ?_, ?_⟩
    · -- bucketOf
      intro j e he
      simp only [setId, putM] at he
      by_cases hj : j = fnv1a r.1 &&& (nBuckets - 1)
      · rw [if_pos hj] at he
        rcases List.mem_append.mp he with h | h
        · exact hb j e h
        · simp only [List.mem_singleton] at h
          subst h
          exact hj.symm
      · rw [if_neg hj] at he
        exact hb j e he
    · -- keysND
      intro j
      simp only [setId, putM]
      by_cases hj : j = fnv1a r.1 &&& (nBuckets - 1)
      · rw [if_pos hj]
        simp only [List.map_append, List.nodup_append]
        refine ⟨hnd j, by simp, ?_⟩
        intro a ha hak
        simp only [List.map_cons, List.map_nil, List.mem_cons, List.not_mem_nil, or_false]
          at hak
        subst hak
        simp only [List.mem_map] at ha
        obtain ⟨e, he, hek⟩ := ha
        exact hfresh j e he hek
      · rw [if_neg hj]
        exact hnd j
    · -- complete
      intro r2 hr2
      rcases List.mem_append.mp hr2 with h | h
      · obtain ⟨j, e, he, hek⟩ := hc r2 h
        refine ⟨j, e, ?_, hek⟩
        simp only [setId, putM]
        by_cases hj : j = fnv1a r.1 &&& (nBuckets - 1)
        · rw [if_pos hj]
          exact List.mem_append_left _ he
        · rw [if_neg hj]
          exact he
      · simp only [List.mem_singleton] at h
        rw [h]
        refine ⟨fnv1a r.1 &&& (nBuckets - 1), ⟨fnv1a r.1, st.meas.length⟩, ?_, rfl⟩
        simp only [setId, putM]
        rw [if_pos trivial]
        exact List.mem_append_right _ (by simp)
    · -- sound
      intro j e he
      simp only [setId, putM] at he
      have hold : e ∈ st.buckets j → ∃ name m,
          (setId (putM st (fnv1a r.1) (Meas.single r.2.val)) (fnv1a r.1) r.1).ids e.key =
            some name ∧
          fnv1a name = e.key ∧ name ∈ (rows ++ [r]).map Prod.fst ∧
          (setId (putM st (fnv1a r.1) (Meas.single r.2.val)) (fnv1a r.1) r.1).meas[e.mid]? =
            some m ∧
          lookupT (aggregate (rowVals (rows ++ [r]))) name = some m := by
        intro hm
        obtain ⟨name, m, hid, hfn, hmem, hget, hlook⟩ := hs j e hm
        have hek : e.key ≠ fnv1a r.1 := hfresh j e hm
        have hne : name ≠ r.1 := by
          intro he2
          exact hnotin (he2 ▸ hmem)
        refine ⟨name, m, ?_, hfn, ?_, ?_, ?_⟩
        · simp only [setId, putM]
          rw [if_neg hek]
          exact hid
        · simp only [List.map_append, List.mem_append]
          exact Or.inl hmem
        · simp only [setId, putM]
          rw [List.getElem?_append_left (hml j e hm)]
          exact hget
        · rw [hA, lookupT_insertCombine]
          exact (if_neg hne).trans hlook
      by_cases hj : j = fnv1a r.1 &&& (nBuckets - 1)
      · rw [if_pos hj] at he
        rcases List.mem_append.mp he with h | h
        · exact hold h
        · simp only [List.mem_singleton] at h
          subst h
          refine ⟨r.1, Meas.single r.2.val, ?_, rfl, ?_, ?_, ?_⟩
          · simp [setId, putM]
          · simp
          · simp only [setId, putM]
            rw [List.getElem?_append_right (Nat.le_refl _)]
            simp
          · rw [hA, lookupT_insertCombine]
            have : lookupT (aggregate (rowVals rows)) r.1 = none := hlookA
            exact (if_pos rfl).trans (by rw [this]; rfl)
      · rw [if_neg hj] at he
        exact hold he
    · -- midLt
      intro j e he
      simp only [setId, putM] at he ⊢
      simp only [List.length_append, List.length_singleton]
      by_cases hj : j = fnv1a r.1 &&& (nBuckets - 1)
      · rw [if_pos hj] at he
        rcases List.mem_append.mp he with h | h
        · have := hml j e h
          omega
        · simp only [List.mem_singleton] at h
          subst h
          simp
      · rw [if_neg hj] at he
        have := hml j e he
        omega
    · -- midKey
      intro j j2 e he e2 he2 hmid
      simp only [setId, putM] at he he2
      have hsplit : ∀ jx (ex : Entry),
          ex ∈ (if jx = fnv1a r.1 &&& (nBuckets - 1)
            then st.buckets jx ++ [⟨fnv1a r.1, st.meas.length⟩] else st.buckets jx) →
          ex ∈ st.buckets jx ∨ ex = ⟨fnv1a r.1, st.meas.length⟩ := by
        intro jx ex hex
        by_cases hjx : jx = fnv1a r.1 &&& (nBuckets - 1)
        · rw [if_pos hjx] at hex
          rcases List.mem_append.mp hex with h | h
          · exact Or.inl h
          · simp only [List.mem_singleton] at h
            exact Or.inr h
        · rw [if_neg hjx] at hex
          exact Or.inl hex
      rcases hsplit j e he with h1 | h1 <;> rcases hsplit j2 e2 he2 with h2 | h2
      · exact hmk j j2 e h1 e2 h2 hmid
      · exfalso
        subst h2
        change e.mid = st.meas.length at hmid
        have := hml j e h1
        omega
      · exfalso
        subst h1
        change st.meas.length = e2.mid at hmid
        have := hml j2 e2 h2
        omega
      · subst h1
        subst h2
        rfl
  · -- hash already present: update the shared measurement slot in place
    show Inv { st with meas := modifyAt st.meas mid (fun m => m.add1 r.2.val) } (rows ++ [r])
    obtain ⟨e0, he0, he0k, he0mid⟩ := getM_some st (fnv1a r.1) mid hg
    obtain ⟨name0, m0, hid0, hfn0, hmem0, hget0, hlook0⟩ := hs _ e0 he0
    have hname0 : name0 = r.1 := by
      simp only [List.mem_map] at hmem0
      obtain ⟨r0, hr0, hfst⟩ := hmem0
      have heq : r0.1 = r.1 := by
        apply hinj r0 (List.mem_append_left _ hr0) r (List.mem_append_right _ (by simp))
        rw [hfst, hfn0, he0k]
      rw [← hfst, heq]
    have hlookA : lookupT (aggregate (rowVals rows)) r.1 = some m0 := by
      rw [← hname0]
      exact hlook0
    have hget0m : st.meas[mid]? = some m0 := by
      rw [← he0mid]
      exact hget0
    refine ⟨?_, ?_, ?_, ?_, ?_, ?_⟩
    · intro j e he
      exact hb j e he
    · intro j
      exact hnd j
    · intro r2 hr2
      rcases List.mem_append.mp hr2 with h | h
      · exact hc r2 h
      · simp only [List.mem_singleton] at h
        subst h
        exact ⟨_, e0, he0, he0k⟩
    · intro j e he
      obtain ⟨name, m, hid, hfn, hmem, hget, hlook⟩ := hs j e he
      by_cases hm : e.mid = mid
      · -- this is the very entry being updated
        have hekey : e.key = e0.key := hmk j _ e he e0 he0 (by rw [hm, he0mid])
        have hkeyk : e.key = fnv1a r.1 := hekey.trans he0k
        have hnm : name = r.1 := by
          have hidk : st.ids (fnv1a r.1) = some name := hkeyk ▸ hid
          have hid0' : st.ids (fnv1a r.1) = some name0 := he0k ▸ hid0
          have := hidk.symm.trans hid0'
          simp only [Option.some.injEq] at this
          rw [this, hname0]
        have hmm0 : m = m0 := by
          have h1 : st.meas[mid]? = some m := hm ▸ hget
          have := h1.symm.trans hget0m
          simpa using this
        refine ⟨r.1, m0.add1 r.2.val, ?_, ?_, ?_, ?_, ?_⟩
        · rw [← hnm]
          exact hid
        · rw [← hnm] at hkeyk ⊢
          exact hfn
        · simp
        · show (modifyAt st.meas mid (fun m => m.add1 r.2.val))[e.mid]? = some (m0.add1 r.2.val)
          rw [hm, getElem?_modifyAt_self, hget0m]
          rfl
        · rw [hA, lookupT_insertCombine]
          have hif : (r.1 : List Nat) = (r.1, Meas.single r.2.val).1 := rfl
          refine (if_pos rfl).trans ?_
          rw [hlookA]
          show some (m0.combine (Meas.single r.2.val)) = some (m0.add1 r.2.val)
          rw [combine_single]
      · -- an entry for a different hash: untouched
        have hne : name ≠ r.1 := by
          intro he2
          have hekey : e.key = e0.key := by
            rw [← hfn, he2, ← he0k]
          have hj0 : j = fnv1a r.1 &&& (nBuckets - 1) := by
            rw [← hb j e he, hekey, he0k]
          have he' : e ∈ st.buckets (fnv1a r.1 &&& (nBuckets - 1)) := hj0 ▸ he
          have hee0 : e = e0 :=
            List.inj_on_of_nodup_map (hnd (fnv1a r.1 &&& (nBuckets - 1))) he' he0 hekey
          exact hm (by rw [hee0, he0mid])
        refine ⟨name, m, hid, hfn, ?_, ?_, ?_⟩
        · simp only [List.map_append, List.mem_append]
          exact Or.inl hmem
        · show (modifyAt st.meas mid (fun m => m.add1 r.2.val))[e.mid]? = some m
          rw [getElem?_modifyAt_ne _ _ _ _ hm]
          exact hget
        · rw [hA, lookupT_insertCombine]
          exact (if_neg hne).trans hlook
    · intro j e he
      have := hml j e he
      show e.mid < (modifyAt st.meas mid (fun m => m.add1 r.2.val)).length
      rw [modifyAt_length]
      exact this
    · intro j j2 e he e2 he2 hmid
      exact hmk j j2 e he e2 he2 hmid

theorem hashInj_of_append (rows tail : List Row) (h : hashInj (rows ++ tail)) :
    hashInj rows := fun r1 h1 r2 h2 he =>
  h r1 (List.mem_append_left _ h1) r2 (List.mem_append_left _ h2) he

theorem foldl_stepRow_inv (rows : List Row) (hinj : hashInj rows) :
    Inv (rows.foldl stepRow initState) rows := by
  induction rows using List.reverseRecOn with
  | nil => exact inv_init
  | append_singleton rows r ih =>
    rw [List.foldl_append]
    simp only [List.foldl_cons, List.foldl_nil]
    exact stepRow_inv rows r _ hinj (ih (hashInj_of_append rows [r] hinj))

theorem getD_eq_of_getElem {α : Type} (l : List α) (i : Nat) (d a : α)
    (h : l[i]? = some a) : l.getD i d = a := by
  rw [List.getD_eq_getElem?_getD, h]
  rfl

/-- Every entry of the result table built from the buckets carries a row
name together with its reference-aggregate measurement. -/
theorem chunkResult_elem (st : CState) (rows : List Row) (hinv : Inv st rows) :
    ∀ p ∈ chunkResult st, p.1 ∈ rows.map Prod.fst ∧
      lookupT (aggregate (rowVals rows)) p.1 = some p.2 := by
  intro p hp
  obtain ⟨hb, hnd, hc, hs, hml, hmk⟩ := hinv
  simp only [chunkResult, List.mem_flatMap, List.mem_map, List.mem_range] at hp
  obtain ⟨j, hj, e, he, hpe⟩ := hp
  obtain ⟨name, m, hid, hfn, hmem, hget, hlook⟩ := hs j e he
  subst hpe
  show ((st.ids e.key).getD []) ∈ rows.map Prod.fst ∧
    lookupT (aggregate (rowVals rows)) ((st.ids e.key).getD []) =
      some (st.meas.getD e.mid (Meas.single 0))
  have h1 : (st.ids e.key).getD [] = name := by rw [hid]; rfl
  have h2 : st.meas.getD e.mid (Meas.single 0) = m := getD_eq_of_getElem _ _ _ _ hget
  rw [h1, h2]
  exact ⟨hmem, hlook⟩

/-- Every station of the input appears in the result table with its
reference-aggregate measurement (assuming hash injectivity). -/
theorem chunkResult_mem (st : CState) (rows : List Row) (hinv : Inv st rows)
    (hinj : hashInj rows) (n : List Nat) (hn : n ∈ rows.map Prod.fst) :
    ∃ m, (n, m) ∈ chunkResult st ∧ lookupT (aggregate (rowVals rows)) n = some m := by
  obtain ⟨hb, hnd, hc, hs, hml, hmk⟩ := hinv
  simp only [List.mem_map] at hn
  obtain ⟨r, hr, hrn⟩ := hn
  obtain ⟨j, e, he, hek⟩ := hc r hr
  obtain ⟨name, m, hid, hfn, hmem, hget, hlook⟩ := hs j e he
  have hnamen : name = n := by
    simp only [List.mem_map] at hmem
    obtain ⟨r0, hr0, hr0n⟩ := hmem
    have heq : r0.1 = r.1 := hinj r0 hr0 r hr (by rw [hr0n, hfn, hek])
    rw [← hrn, ← hr0n, heq]
  refine ⟨m, ?_, by rw [← hnamen]; exact hlook⟩
  simp only [chunkResult, List.mem_flatMap, List.mem_range]
  have hnb : nBuckets = 4096 := by decide
  refine ⟨j, ?_, ?_⟩
  · rw [← hb j e he]
    have hle : e.key &&& (nBuckets - 1) ≤ nBuckets - 1 := Nat.and_le_right
    omega
  · simp only [List.mem_map]
    refine ⟨e, he, ?_⟩
    show ((st.ids e.key).getD [], st.meas.getD e.mid (Meas.single 0)) = (n, m)
    have h1 : (st.ids e.key).getD [] = n := by rw [hid, hnamen]; rfl
    have h2 : st.meas.getD e.mid (Meas.single 0) = m := getD_eq_of_getElem _ _ _ _ hget
    rw [h1, h2]

theorem lookupT_of_mem_unique (t : Table) (n : List Nat) (m : Meas)
    (hmem : (n, m) ∈ t) (huniq : ∀ p ∈ t, p.1 = n → p.2 = m) :
    lookupT t n = some m := by
  induction t with
  | nil => cases hmem
  | cons a t ih =>
    rw [lookupT_cons]
    by_cases ha : a.1 = n
    · rw [if_pos ha, huniq a (List.mem_cons_self a t) ha]
    · rw [if_neg ha]
      rcases List.mem_cons.mp hmem with h | h
      · exact absurd (by rw [← h]) ha
      · exact ih h (fun p hp => huniq p (List.mem_cons_of_mem a hp))

/-- The table returned by `processChunk` agrees pointwise with the
reference aggregation of the rows scanned, under hash injectivity. -/
theorem chunkResult_lookup (st : CState) (rows : List Row) (hinv : Inv st rows)
    (hinj : hashInj rows) (n : List Nat) :
    lookupT (chunkResult st) n = lookupT (aggregate (rowVals rows)) n := by
  by_cases hn : n ∈ rows.map Prod.fst
  · obtain ⟨m, hmem, hlook⟩ := chunkResult_mem st rows hinv hinj n hn
    rw [hlook]
    apply lookupT_of_mem_unique _ _ _ hmem
    intro p hp hpn
    have helem := (chunkResult_elem st rows hinv p hp).2
    rw [hpn, hlook] at helem
    simpa using helem.symm
  · rw [lookupT_aggregate_none _ _ (by rw [rowVals_fst]; exact hn)]
    apply lookupT_eq_none_of_not_mem
    intro hmem2
    simp only [List.mem_map] at hmem2
    obtain ⟨p, hp, hpn⟩ := hmem2
    have helem := (chunkResult_elem st rows hinv p hp).1
    rw [hpn] at helem
    exact hn helem

/-- The station names of the result table are pairwise distinct. -/
theorem chunkResult_nodup (st : CState) (rows : List Row) (hinv : Inv st rows) :
    ((chunkResult st).map Prod.fst).Nodup := by
  obtain ⟨hb, hnd, hc, hs, hml, hmk⟩ := hinv
  have hfn : ∀ j, ∀ e ∈ st.buckets j, fnv1a ((st.ids e.key).getD []) = e.key := by
    intro j e he
    obtain ⟨name, m, hid, hfne, _, _, _⟩ := hs j e he
    rw [hid]
    exact hfne
  have hgen : ∀ ks : List Nat, ks.Nodup →
      ((ks.flatMap (fun i => (st.buckets i).map
        (fun e => ((st.ids e.key).getD [], st.meas.getD e.mid (Meas.single 0))))).map
          Prod.fst).Nodup := by
    intro ks
    induction ks with
    | nil => intro h; exact List.nodup_nil
    | cons k ks ih =>
      intro hks
      rw [List.nodup_cons] at hks
      rw [List.flatMap_cons, List.map_append, List.nodup_append]
      refine ⟨?_, ih hks.2, ?_⟩
      · rw [List.map_map]
        apply List.Nodup.map_on
        · intro x hx y hy hxy
          have hxy2 : (st.ids x.key).getD [] = (st.ids y.key).getD [] := hxy
          have hk : x.key = y.key := by
            rw [← hfn k x hx, ← hfn k y hy, hxy2]
          exact List.inj_on_of_nodup_map (hnd k) hx hy hk
        · exact List.Nodup.of_map _ (hnd k)
      · intro a ha hak
        rw [List.map_map] at ha
        simp only [List.mem_map] at ha
        obtain ⟨x, hx, hxa⟩ := ha
        simp only [List.mem_map, List.mem_flatMap] at hak
        obtain ⟨pp, ⟨j, hj, hpp⟩, hppa⟩ := hak
        obtain ⟨y, hy, hyp⟩ := hpp
        have hxa2 : (st.ids x.key).getD [] = a := hxa
        have hya2 : (st.ids y.key).getD [] = a := by
          rw [← hyp] at hppa
          exact hppa
        have hk2 : x.key = y.key := by
          rw [← hfn k x hx, ← hfn j y hy, hxa2, hya2]
        have hjk : j = k := by
          rw [← hb j y hy, ← hk2, hb k x hx]
        exact hks.1 (hjk ▸ hj)
  unfold chunkResult
  exact hgen (List.range nBuckets) (List.nodup_range _)

theorem hashInj_of_subset (l l2 : List Row) (hsub : ∀ x ∈ l2, x ∈ l)
    (h : hashInj l) : hashInj l2 :=
  fun r1 h1 r2 h2 he => h r1 (hsub r1 h1) r2 (hsub r2 h2) he

/-- `processChunk` on the encoding of well-formed rows (plus 4 overlap
bytes) produces a duplicate-free table that agrees pointwise with the
reference aggregation, assuming no hash collisions among the rows. -/
theorem processChunk_encode (rows : List Row) (tail : List Nat)
    (hw : ∀ r ∈ rows, wfRow r) (htail : tail.length = 4) (htb : ∀ b ∈ tail, b < 256)
    (hinj : hashInj rows) :
    ((processChunk (encodeRows rows ++ tail)).map Prod.fst).Nodup ∧
      ∀ n, lookupT (processChunk (encodeRows rows ++ tail)) n =
        lookupT (aggregate (rowVals rows)) n := by
  unfold processChunk
  rw [chunkGo_encode rows tail initState _ hw htail htb (le_refl _)]
  have hinv := foldl_stepRow_inv rows hinj
  exact ⟨chunkResult_nodup _ rows hinv, fun n => chunkResult_lookup _ rows hinv hinj n⟩

/-! ### Partitioning: chunk boundaries land on row starts -/

theorem findIdx?_first (c : Nat) (as bs : List Nat) (h : ∀ b ∈ as, b ≠ c) :
    (as ++ c :: bs).findIdx? (fun b => b == c) = some as.length := by
  induction as with
  | nil =>
    rw [List.nil_append, List.findIdx?_cons]
    rw [if_pos (by simp)]
    rfl
  | cons a as ih =>
    rw [List.cons_append, List.findIdx?_cons]
    rw [if_neg (by simp only [beq_iff_eq]; exact h a (List.mem_cons_self a as))]
    rw [List.findIdx?_succ, ih (fun b hb => h b (by simp [hb]))]
    rfl

theorem rowBytes_length_ge (r : Row) : 5 ≤ (rowBytes r).length := by
  rw [rowBytes_len]
  have := numeral_bytes_len r.2
  simp only [List.length_append, List.length_singleton]
  omega

theorem encodeRows_length_ge (r : Row) (rows : List Row) (hr : r ∈ rows) :
    5 ≤ (encodeRows rows).length := by
  induction rows with
  | nil => cases hr
  | cons x rows ih =>
    rw [encodeRows_cons, List.length_append]
    rcases List.mem_cons.mp hr with h | h
    · have := rowBytes_length_ge x
      omega
    · have := ih h
      omega

theorem encodeRows_singleton (r : Row) : encodeRows [r] = rowBytes r := by
  simp [encodeRows]

/-- The byte offset of row `b` splits as the offset of row `a` plus the
encoded length of the rows in between. -/
theorem encodeRows_take_split (rows : List Row) (a b : Nat) (hab : a ≤ b) :
    (encodeRows (rows.take b)).length =
      (encodeRows (rows.take a)).length + (encodeRows ((rows.take b).drop a)).length := by
  conv_lhs => rw [← List.take_append_drop a (rows.take b)]
  rw [List.take_take, Nat.min_eq_left hab, encodeRows_append, List.length_append]

theorem encodeRows_take_lt (rows : List Row) (a b : Nat) (hab : a < b)
    (hb : b ≤ rows.length) :
    (encodeRows (rows.take a)).length < (encodeRows (rows.take b)).length := by
  rw [encodeRows_take_split rows a b (le_of_lt hab)]
  rcases hx : (rows.take b).drop a with _ | ⟨x, xs⟩
  · exfalso
    have := congrArg List.length hx
    rw [List.length_drop, List.length_take] at this
    simp only [List.length_nil] at this
    omega
  · have h5 : 5 ≤ (encodeRows (x :: xs)).length := encodeRows_length_ge x _ (by simp)
    omega

theorem encodeRows_take_le (rows : List Row) (a b : Nat) (hab : a ≤ b) :
    (encodeRows (rows.take a)).length ≤ (encodeRows (rows.take b)).length := by
  rw [encodeRows_take_split rows a b hab]
  omega

/-- The data slice handed to a chunk worker: from row start `a` up to row
start `b` plus the 4 overlap bytes, which reach into the following rows. -/
theorem slice_encode (rows0 : List Row) (rL : Row) (a b : Nat) (hab : a ≤ b)
    (hb : b ≤ rows0.length) :
    ((encodeRows rows0 ++ rowBytes rL).drop (encodeRows (rows0.take a)).length).take
        ((encodeRows (rows0.take b)).length + chunkOverlap -
          (encodeRows (rows0.take a)).length) =
      encodeRows ((rows0.take b).drop a) ++
        (encodeRows (rows0.drop b) ++ rowBytes rL).take 4 := by
  have hd1 : encodeRows rows0 ++ rowBytes rL =
      encodeRows (rows0.take a) ++ (encodeRows (rows0.drop a) ++ rowBytes rL) := by
    conv_lhs => rw [← List.take_append_drop a rows0]
    rw [encodeRows_append, List.append_assoc]
  have hd2 : rows0.drop a = (rows0.take b).drop a ++ rows0.drop b := by
    conv_lhs => rw [← List.take_append_drop b rows0]
    rw [List.drop_append_eq_append_drop]
    have hlt : a ≤ (rows0.take b).length := by
      rw [List.length_take]
      omega
    rw [Nat.sub_eq_zero_of_le hlt, List.drop_zero]
  have hsplit := encodeRows_take_split rows0 a b hab
  rw [hd1, List.drop_left]
  rw [hd2, encodeRows_append, List.append_assoc]
  have hamount : (encodeRows (rows0.take b)).length + chunkOverlap -
      (encodeRows (rows0.take a)).length =
      (encodeRows ((rows0.take b).drop a)).length + 4 := by
    simp only [chunkOverlap] at hsplit ⊢
    omega
  rw [hamount, List.take_append_eq_append_take,
    List.take_of_length_le (by omega), Nat.add_sub_cancel_left]

theorem tail4_len (rows0 : List Row) (rL : Row) (b : Nat) :
    ((encodeRows (rows0.drop b) ++ rowBytes rL).take 4).length = 4 := by
  rw [List.length_take, List.length_append]
  have := rowBytes_length_ge rL
  omega

theorem tail4_bytes (rows0 : List Row) (rL : Row)
    (hw : ∀ r ∈ rows0 ++ [rL], wfRow r) (b : Nat) :
    ∀ x ∈ (encodeRows (rows0.drop b) ++ rowBytes rL).take 4, x < 256 := by
  intro x hx
  have hx2 := List.mem_of_mem_take hx
  rw [show encodeRows (rows0.drop b) ++ rowBytes rL = encodeRows (rows0.drop b ++ [rL]) by
    rw [encodeRows_append, encodeRows_singleton]] at hx2
  refine encodeRows_bytes_lt _ (fun r hr => hw r ?_) x hx2
  simp only [List.mem_append, List.mem_singleton] at hr ⊢
  rcases hr with h | h
  · exact Or.inl (List.mem_of_mem_drop h)
  · exact Or.inr h

/-- Scanning for a newline from any in-bounds position of the encoded rows
finds one, and the position right after it is a row start. -/
theorem encodeRows_first_nl (rows0 : List Row) : (∀ r ∈ rows0, wfRow r) → ∀ q,
    q < (encodeRows rows0).length →
    ∃ j m, ((encodeRows rows0).drop q).findIdx? (fun b => b == 10) = some j ∧
      1 ≤ m ∧ m ≤ rows0.length ∧ q + j + 1 = (encodeRows (rows0.take m)).length := by
  induction rows0 with
  | nil =>
    intro _ q hq
    simp [encodeRows] at hq
  | cons r rest ih =>
    intro hw q hq
    rw [encodeRows_cons] at hq ⊢
    by_cases hcase : q < (rowBytes r).length
    · have hrow : rowBytes r = (r.1 ++ [59] ++ r.2.bytes) ++ [10] := by
        rw [rowBytes_len]
      have hlen : (rowBytes r).length = (r.1 ++ [59] ++ r.2.bytes).length + 1 := by
        rw [hrow]
        simp
        omega
      have hqp : q ≤ (r.1 ++ [59] ++ r.2.bytes).length := by omega
      have hdrop : (rowBytes r ++ encodeRows rest).drop q =
          (r.1 ++ [59] ++ r.2.bytes).drop q ++ 10 :: encodeRows rest := by
        rw [hrow, List.append_assoc, List.drop_append_eq_append_drop,
          Nat.sub_eq_zero_of_le hqp, List.drop_zero]
        rfl
      rw [hdrop, findIdx?_first 10 _ _
        (fun b hb => rowBytes_sans_nl r (hw r (by simp)) b (List.mem_of_mem_drop hb))]
      refine ⟨((r.1 ++ [59] ++ r.2.bytes).drop q).length, 1, rfl, le_refl 1, by simp, ?_⟩
      rw [List.length_drop, show (r :: rest).take 1 = [r] from rfl, encodeRows_singleton]
      omega
    · push_neg at hcase
      have hdrop : (rowBytes r ++ encodeRows rest).drop q =
          (encodeRows rest).drop (q - (rowBytes r).length) := by
        rw [List.drop_append_eq_append_drop, List.drop_eq_nil_of_le hcase, List.nil_append]
      have hq2 : q - (rowBytes r).length < (encodeRows rest).length := by
        rw [List.length_append] at hq
        omega
      obtain ⟨j, m, hfind, hm1, hmle, heq⟩ := ih (fun x hx => hw x (by simp [hx])) _ hq2
      refine ⟨j, m + 1, ?_, by omega, ?_, ?_⟩
      · rw [hdrop]
        exact hfind
      · simp only [List.length_cons]
        omega
      · rw [show (r :: rest).take (m + 1) = r :: rest.take m from rfl, encodeRows_cons,
          List.length_append]
        omega

/-- `bytes.LastIndexByte(data[:len(data)-1], '\n')` on the encoded input
finds the newline that terminates the second-to-last row. -/
theorem lastIdxByte_encode (rows0 : List Row) (rL : Row) (hw0 : ∀ r ∈ rows0, wfRow r)
    (hwL : wfRow rL) (hne : rows0 ≠ []) :
    lastIdxByte ((encodeRows rows0 ++ rowBytes rL).take
        ((encodeRows rows0 ++ rowBytes rL).length - 1)) 10 =
      some ((encodeRows rows0).length - 1) := by
  have hpre : rowBytes rL = (rL.1 ++ [59] ++ rL.2.bytes) ++ [10] := by
    rw [rowBytes_len]
  have htake : (encodeRows rows0 ++ rowBytes rL).take
      ((encodeRows rows0 ++ rowBytes rL).length - 1) =
      encodeRows rows0 ++ (rL.1 ++ [59] ++ rL.2.bytes) := by
    rw [hpre]
    simp only [← List.append_assoc]
    rw [List.length_append, List.length_singleton, Nat.add_sub_cancel]
    exact List.take_left _ _
  rw [htake]
  rcases List.eq_nil_or_concat rows0 with h | ⟨rs, rlast, h⟩
  · exact absurd h hne
  subst h
  simp only [List.concat_eq_append] at hw0 ⊢
  have hE : encodeRows (rs ++ [rlast]) =
      (encodeRows rs ++ (rlast.1 ++ [59] ++ rlast.2.bytes)) ++ [10] := by
    rw [encodeRows_append, encodeRows_singleton, rowBytes_len]
    simp [List.append_assoc]
  unfold lastIdxByte
  have hrev : ((encodeRows (rs ++ [rlast]) ++ (rL.1 ++ [59] ++ rL.2.bytes)).reverse) =
      (rL.1 ++ [59] ++ rL.2.bytes).reverse ++ 10 ::
        (encodeRows rs ++ (rlast.1 ++ [59] ++ rlast.2.bytes)).reverse := by
    simp [hE]
  rw [hrev, findIdx?_first 10 _ _ (fun b hb =>
    rowBytes_sans_nl rL hwL b (List.mem_reverse.mp hb))]
  have h5 : 5 ≤ (encodeRows (rs ++ [rlast])).length :=
    encodeRows_length_ge rlast _ (by simp)
  simp only [List.length_append, List.length_reverse]
  congr 1
  omega

theorem lookupT_foldl_insert (ys : List (List Nat × Int)) (n : List Nat) :
    ∀ acc : Table,
      lookupT (ys.foldl (fun acc r => insertCombine acc (r.1, Meas.single r.2)) acc) n =
        optCombine (lookupT acc n) (lookupT (aggregate ys) n) := by
  induction ys with
  | nil =>
    intro acc
    show lookupT acc n = optCombine (lookupT acc n) (lookupT ([] : Table) n)
    rw [lookupT_nil, optCombine_none_right]
  | cons y ys ih =>
    intro acc
    rw [List.foldl_cons, ih]
    have hr : lookupT (aggregate (y :: ys)) n =
        optCombine (lookupT (insertCombine [] (y.1, Meas.single y.2)) n)
          (lookupT (aggregate ys) n) := by
      show lookupT (ys.foldl (fun acc r => insertCombine acc (r.1, Meas.single r.2))
        (insertCombine [] (y.1, Meas.single y.2))) n = _
      rw [ih]
    rw [hr, lookupT_insertCombine, lookupT_insertCombine, lookupT_nil]
    by_cases hn : n = (y.1, Meas.single y.2).1
    · rw [if_pos hn, if_pos hn]
      rw [show optCombine none (some (y.1, Meas.single y.2).2) =
        some (y.1, Meas.single y.2).2 from rfl, optCombine_assoc]
    · rw [if_neg hn, if_neg hn]
      rw [show optCombine none (lookupT (aggregate ys) n) = lookupT (aggregate ys) n
        from rfl]

/-- Lookup in the aggregate of concatenated record lists combines the two
aggregates, exactly like the merge step. -/
theorem lookupT_aggregate_append (xs ys : List (List Nat × Int)) (n : List Nat) :
    lookupT (aggregate (xs ++ ys)) n =
      optCombine (lookupT (aggregate xs) n) (lookupT (aggregate ys) n) := by
  unfold aggregate
  rw [List.foldl_append]
  exact lookupT_foldl_insert ys n _

/-- The chunk-boundary loop returns a nondecreasing list of cuts; every cut
is a row-start offset and the final cut is the last-row offset. -/
theorem chunksGo_spec (rows0 : List Row) (rL : Row) (hw0 : ∀ r ∈ rows0, wfRow r)
    (hne : rows0 ≠ []) (cs : Nat) (hcs : cs ≠ 0) :
    ∀ fuel offset acc,
      (encodeRows rows0).length - offset < fuel →
      offset ≤ (encodeRows rows0).length →
      ∃ cuts pre, chunksGo fuel offset cs (encodeRows rows0).length
          (encodeRows rows0 ++ rowBytes rL) acc = acc ++ cuts ∧
        cuts = pre ++ [(encodeRows rows0).length] ∧
        List.Chain (fun x y => x ≤ y) offset cuts ∧
        ∀ c ∈ cuts, ∃ m, 1 ≤ m ∧ m ≤ rows0.length ∧
          c = (encodeRows (rows0.take m)).length := by
  intro fuel
  induction fuel with
  | zero =>
    intro offset acc h1 h2
    omega
  | succ fuel ih =>
    intro offset acc h1 h2
    have hlro_lt : (encodeRows rows0).length <
        (encodeRows rows0 ++ rowBytes rL).length := by
      rw [List.length_append]
      have := rowBytes_length_ge rL
      omega
    simp only [chunksGo]
    rw [if_pos (by omega)]
    by_cases hb1 : (encodeRows rows0).length ≤ offset + cs
    · rw [if_pos hb1]
      refine ⟨[(encodeRows rows0).length], [], rfl, by simp, ?_, ?_⟩
      · exact List.Chain.cons h2 List.Chain.nil
      · intro c hc
        simp only [List.mem_singleton] at hc
        subst hc
        refine ⟨rows0.length, ?_, le_refl _, by rw [List.take_length]⟩
        cases rows0 with
        | nil => exact absurd rfl hne
        | cons _ _ => simp
    · rw [if_neg hb1]
      push_neg at hb1
      have hreg : ((encodeRows rows0 ++ rowBytes rL).drop (offset + cs)).take
          ((encodeRows rows0).length - (offset + cs)) =
          (encodeRows rows0).drop (offset + cs) := by
        rw [List.drop_append_eq_append_drop, Nat.sub_eq_zero_of_le (le_of_lt hb1),
          List.drop_zero, List.take_append_eq_append_take,
          List.take_of_length_le (by rw [List.length_drop]), List.length_drop,
          Nat.sub_self, List.take_zero, List.append_nil]
      obtain ⟨j, m, hfind, hm1, hmle, heq⟩ :=
        encodeRows_first_nl rows0 hw0 (offset + cs) hb1
      rw [hreg, hfind]
      have hcutle : offset + cs + j + 1 ≤ (encodeRows rows0).length := by
        have hle := encodeRows_take_le rows0 m rows0.length hmle
        rw [List.take_length] at hle
        omega
      obtain ⟨cuts', pre', hrun, hpre, hchain, hRS⟩ :=
        ih (offset + cs + j + 1) (acc ++ [offset + cs + j + 1]) (by omega) hcutle
      refine ⟨(offset + cs + j + 1) :: cuts', (offset + cs + j + 1) :: pre',
        ?_, ?_, ?_, ?_⟩
      · show chunksGo fuel (offset + cs + j + 1) cs (encodeRows rows0).length
          (encodeRows rows0 ++ rowBytes rL) (acc ++ [offset + cs + j + 1]) = _
        rw [hrun]
        simp
      · rw [List.cons_append, hpre]
      · exact List.Chain.cons (by omega) hchain
      · intro c hc
        rcases List.mem_cons.mp hc with h | h
        · subst h
          exact ⟨m, hm1, hmle, heq⟩
        · exact hRS c h

theorem rowVals_append (l1 l2 : List Row) :
    rowVals (l1 ++ l2) = rowVals l1 ++ rowVals l2 := by
  simp [rowVals]

theorem drop_take_append (rows0 : List Row) (a b : Nat) (hab : a ≤ b)
    (hb : b ≤ rows0.length) :
    (rows0.take b).drop a ++ rows0.drop b = rows0.drop a := by
  conv_rhs => rw [← List.take_append_drop b rows0]
  rw [List.drop_append_eq_append_drop]
  have hlt : a ≤ (rows0.take b).length := by
    rw [List.length_take]
    omega
  rw [Nat.sub_eq_zero_of_le hlt, List.drop_zero]

set_option maxRecDepth 40000 in
/-- Folding the per-chunk tables over a valid cut list recovers the
aggregate of all remaining rows, and each chunk table is duplicate-free. -/
theorem assemble (rows0 : List Row) (rL : Row)
    (hw : ∀ r ∈ rows0 ++ [rL], wfRow r) (hinj : hashInj (rows0 ++ [rL])) (n : List Nat) :
    ∀ cuts a (o : Option Meas), a ≤ rows0.length →
      List.Chain (fun x y => x ≤ y) (encodeRows (rows0.take a)).length cuts →
      (∀ c ∈ cuts, ∃ m, 1 ≤ m ∧ m ≤ rows0.length ∧
        c = (encodeRows (rows0.take m)).length) →
      (∃ pre, cuts = pre ++ [(encodeRows rows0).length]) →
      ((((encodeRows (rows0.take a)).length :: cuts).zip cuts).map
          (fun sc => processChunk (((encodeRows rows0 ++ rowBytes rL).drop sc.1).take
            (sc.2 + chunkOverlap - sc.1)))).foldl
        (fun o t => optCombine o (lookupT t n)) o =
        optCombine o (lookupT (aggregate (rowVals (rows0.drop a))) n) ∧
      ∀ t ∈ (((encodeRows (rows0.take a)).length :: cuts).zip cuts).map
          (fun sc => processChunk (((encodeRows rows0 ++ rowBytes rL).drop sc.1).take
            (sc.2 + chunkOverlap - sc.1))),
        (t.map Prod.fst).Nodup := by
  intro cuts
  induction cuts with
  | nil =>
    intro a o ha hchain hRS hlast
    obtain ⟨pre, hp⟩ := hlast
    rcases pre with _ | ⟨p, ps⟩ <;> simp at hp
  | cons c rest ih =>
    intro a o ha hchain hRS hlast
    obtain ⟨m, hm1, hmle, hc⟩ := hRS c (List.mem_cons_self c rest)
    rw [List.chain_cons] at hchain
    have hab : a ≤ m := by
      by_contra hcon
      push_neg at hcon
      have hlt := encodeRows_take_lt rows0 m a hcon ha
      rw [← hc] at hlt
      have := hchain.1
      omega
    have hwseg : ∀ r ∈ (rows0.take m).drop a, wfRow r := fun r hr =>
      hw r (List.mem_append_left _ (List.mem_of_mem_take (List.mem_of_mem_drop hr)))
    have hinjseg : hashInj ((rows0.take m).drop a) :=
      hashInj_of_subset _ _ (fun x hx => List.mem_append_left _
        (List.mem_of_mem_take (List.mem_of_mem_drop hx))) hinj
    have hslice := slice_encode rows0 rL a m hab hmle
    have hchunk := processChunk_encode ((rows0.take m).drop a)
      ((encodeRows (rows0.drop m) ++ rowBytes rL).take 4) hwseg
      (tail4_len rows0 rL m) (tail4_bytes rows0 rL hw m) hinjseg
    rw [hc]
    rcases rest with _ | ⟨c2, rest'⟩
    · -- final chunk: it ends at the last-row offset
      obtain ⟨pre, hp⟩ := hlast
      have hclro : c = (encodeRows rows0).length := by
        rcases pre with _ | ⟨p, ps⟩
        · simpa using hp
        · rw [List.cons_append] at hp
          injection hp with h1 h2
          exact absurd h2.symm (by simp)
      have hmlen : m = rows0.length := by
        by_contra hcon
        have hlt := encodeRows_take_lt rows0 m rows0.length
          (lt_of_le_of_ne hmle hcon) (le_refl _)
        rw [List.take_length, ← hc, hclro] at hlt
        omega
      rw [List.zip_cons_cons, List.zip_nil_right]
      simp only [List.map_cons, List.map_nil, List.foldl_cons, List.foldl_nil]
      rw [hslice]
      constructor
      · rw [hchunk.2 n, hmlen, List.take_length]
      · intro t ht
        simp only [List.mem_singleton] at ht
        subst ht
        exact hchunk.1
    · -- an inner chunk followed by more cuts
      obtain ⟨pre, hp⟩ := hlast
      rcases pre with _ | ⟨p, ps⟩
      · exfalso
        rw [List.nil_append] at hp
        injection hp with h1 h2
        exact absurd h2 (by simp)
      rw [List.cons_append] at hp
      injection hp with h1 h2
      have htail : List.Chain (fun x y => x ≤ y) (encodeRows (rows0.take m)).length
          (c2 :: rest') := by
        have := hchain.2
        rw [hc] at this
        exact this
      have hRS2 : ∀ c' ∈ c2 :: rest', ∃ m', 1 ≤ m' ∧ m' ≤ rows0.length ∧
          c' = (encodeRows (rows0.take m')).length :=
        fun c' h => hRS c' (List.mem_cons_of_mem _ h)
      rw [List.zip_cons_cons]
      simp only [List.map_cons, List.foldl_cons]
      rw [hslice]
      have ihc := ih m (optCombine o (lookupT (processChunk
        (encodeRows ((rows0.take m).drop a) ++
          (encodeRows (rows0.drop m) ++ rowBytes rL).take 4)) n))
        hmle htail hRS2 ⟨ps, h2⟩
      constructor
      · rw [ihc.1, hchunk.2 n, optCombine_assoc, ← lookupT_aggregate_append,
          ← rowVals_append, drop_take_append rows0 a m hab hmle]
      · intro t ht
        rcases List.mem_cons.mp ht with h | h
        · subst h
          exact hchunk.1
        · exact ihc.2 t h

theorem lookupT_aggregate_single (r : Row) (n : List Nat) :
    lookupT (aggregate (rowVals [r])) n = lookupT [(r.1, Meas.single r.2.val)] n := rfl

set_option maxRecDepth 40000 in
/-- `process` on a multi-row encoded input returns a table agreeing
pointwise with the reference aggregation (assuming hash injectivity and a
nonzero chunk size). -/
theorem process_encode_multi (rows0 : List Row) (rL : Row)
    (hw : ∀ r ∈ rows0 ++ [rL], wfRow r) (hinj : hashInj (rows0 ++ [rL]))
    (hne : rows0 ≠ []) (nc : Nat)
    (hcs : (encodeRows rows0 ++ rowBytes rL).length / nc ≠ 0) :
    ∃ t, process (encodeRows rows0 ++ rowBytes rL) nc = some t ∧
      ∀ n, lookupT t n = lookupT (aggregate (rowVals (rows0 ++ [rL]))) n := by
  have hwL : wfRow rL := hw rL (by simp)
  have hw0 : ∀ r ∈ rows0, wfRow r := fun r h => hw r (List.mem_append_left _ h)
  have hE1 : 1 ≤ (encodeRows rows0).length := by
    rcases rows0 with _ | ⟨r, rs⟩
    · exact absurd rfl hne
    · have := encodeRows_length_ge r (r :: rs) (by simp)
      omega
  simp only [process]
  rw [if_neg hcs]
  have hli := lastIdxByte_encode rows0 rL hw0 hwL hne
  simp only [hli]
  rw [show (encodeRows rows0).length - 1 + 1 = (encodeRows rows0).length by omega]
  obtain ⟨cuts, pre, hrun, hpre, hchain, hRS⟩ :=
    chunksGo_spec rows0 rL hw0 hne ((encodeRows rows0 ++ rowBytes rL).length / nc) hcs
      ((encodeRows rows0 ++ rowBytes rL).length + 1) 0 []
      (by rw [List.length_append]; omega) (Nat.zero_le _)
  rw [hrun, List.nil_append]
  rw [show (encodeRows rows0 ++ rowBytes rL).drop (encodeRows rows0).length =
    rowBytes rL from List.drop_left _ _]
  simp only [parseRow_rowBytes rL hwL]
  refine ⟨_, rfl, ?_⟩
  intro n
  have hasm := assemble rows0 rL hw hinj n cuts 0 none (Nat.zero_le _) hchain hRS
    ⟨pre, hpre⟩
  rw [lookupT_mergeAll _ n ?nodups]
  case nodups =>
    intro t ht
    rcases List.mem_append.mp ht with h | h
    · exact hasm.2 t h
    · simp only [List.mem_singleton] at h
      subst h
      simp
  rw [List.foldl_append]
  simp only [List.foldl_cons, List.foldl_nil]
  have hfold : (((0 :: cuts).zip cuts).map
      (fun sc => processChunk (((encodeRows rows0 ++ rowBytes rL).drop sc.1).take
        (sc.2 + chunkOverlap - sc.1)))).foldl
      (fun o t => optCombine o (lookupT t n)) none =
      optCombine none (lookupT (aggregate (rowVals (rows0.drop 0))) n) := hasm.1
  rw [hfold]
  rw [show optCombine none (lookupT (aggregate (rowVals (rows0.drop 0))) n) =
    lookupT (aggregate (rowVals (rows0.drop 0))) n from rfl, List.drop_zero]
  rw [rowVals_append, lookupT_aggregate_append, lookupT_aggregate_single]

/-- With one worker the partition degenerates: a single chunk covering all
but the last row, which is parsed directly. -/
theorem process_one_chunk (rows0 : List Row) (rL : Row)
    (hw0 : ∀ r ∈ rows0, wfRow r) (hwL : wfRow rL) (hne : rows0 ≠ []) :
    process (encodeRows rows0 ++ rowBytes rL) 1 =
      some (mergeAll [processChunk (encodeRows rows0 ++ (rowBytes rL).take 4),
        [(rL.1, Meas.single rL.2.val)]]) := by
  have hE1 : 1 ≤ (encodeRows rows0).length := by
    rcases rows0 with _ | ⟨r, rs⟩
    · exact absurd rfl hne
    · have := encodeRows_length_ge r (r :: rs) (by simp)
      omega
  have hL : (encodeRows rows0 ++ rowBytes rL).length =
      (encodeRows rows0).length + (rowBytes rL).length := List.length_append _ _
  have hR5 := rowBytes_length_ge rL
  simp only [process]
  rw [Nat.div_one]
  rw [if_neg (by omega)]
  have hli := lastIdxByte_encode rows0 rL hw0 hwL hne
  simp only [hli]
  rw [show (encodeRows rows0).length - 1 + 1 = (encodeRows rows0).length by omega]
  have hcg : chunksGo ((encodeRows rows0 ++ rowBytes rL).length + 1) 0
      ((encodeRows rows0 ++ rowBytes rL).length) (encodeRows rows0).length
      (encodeRows rows0 ++ rowBytes rL) [] = [(encodeRows rows0).length] := by
    simp only [chunksGo]
    rw [if_pos (by omega), if_pos (by omega), List.nil_append]
  rw [hcg]
  rw [show ((0 :: [(encodeRows rows0).length]).zip [(encodeRows rows0).length]) =
    [((0 : Nat), (encodeRows rows0).length)] from rfl]
  simp only [List.map_cons, List.map_nil]
  rw [List.drop_zero]
  rw [show (encodeRows rows0).length + chunkOverlap - 0 =
    (encodeRows rows0).length + 4 from rfl]
  rw [show (encodeRows rows0 ++ rowBytes rL).take ((encodeRows rows0).length + 4) =
    encodeRows rows0 ++ (rowBytes rL).take 4 by
      rw [List.take_append_eq_append_take, List.take_of_length_le (by omega),
        Nat.add_sub_cancel_left]]
  rw [show (encodeRows rows0 ++ rowBytes rL).drop (encodeRows rows0).length =
    rowBytes rL from List.drop_left _ _]
  simp only [parseRow_rowBytes rL hwL]
  rfl

theorem flatMap_nil_of (l : List Nat) {α : Type} (f : Nat → List α)
    (h : ∀ j ∈ l, f j = []) : l.flatMap f = [] := by
  induction l with
  | nil => rfl
  | cons a l ih =>
    rw [List.flatMap_cons, h a (by simp), List.nil_append]
    exact ih (fun j hj => h j (by simp [hj]))

theorem flatMap_if_single {α : Type} (K j0 : Nat) (hj : j0 < K) (xs : List α)
    (f : Nat → List α) (hf : ∀ j, f j = if j = j0 then xs else []) :
    (List.range K).flatMap f = xs := by
  induction K with
  | zero => omega
  | succ K ih =>
    rw [List.range_succ, List.flatMap_append]
    by_cases h : j0 = K
    · subst h
      rw [flatMap_nil_of _ _ (fun j hjm => by
        rw [hf j, if_neg]
        intro he
        subst he
        exact absurd hjm (by simp)), List.nil_append]
      simp only [List.flatMap_cons, List.flatMap_nil, List.append_nil]
      rw [hf j0, if_pos rfl]
    · have h2 : ([K] : List Nat).flatMap f = [] := by
        simp only [List.flatMap_cons, List.flatMap_nil, List.append_nil]
        rw [hf K, if_neg (fun he => h he.symm)]
      rw [ih (by omega), h2, List.append_nil]

/-- A chunk holding two records whose names hash equally: the second is
silently folded into the first's slot, and the result table carries only
the first name. -/
theorem processChunk_collision (r1 r2 : Row) (tail : List Nat)
    (hw1 : wfRow r1) (hw2 : wfRow r2)
    (htail : tail.length = 4) (htb : ∀ b ∈ tail, b < 256)
    (hcol : fnv1a r2.1 = fnv1a r1.1) :
    processChunk (encodeRows [r1, r2] ++ tail) =
      [(r1.1, (Meas.single r1.2.val).add1 r2.2.val)] := by
  unfold processChunk
  rw [chunkGo_encode [r1, r2] tail initState _ (by
    intro r hr
    rcases List.mem_cons.mp hr with h | h
    · subst h; exact hw1
    · simp only [List.mem_singleton] at h
      subst h
      exact hw2) htail htb (le_refl _)]
  have hg1 : getM initState (fnv1a r1.1) = none := rfl
  have hst1 : ([r1, r2] : List Row).foldl stepRow initState =
      stepRow (setId (putM initState (fnv1a r1.1) (Meas.single r1.2.val))
        (fnv1a r1.1) r1.1) r2 := by
    simp only [List.foldl_cons, List.foldl_nil]
    congr 1
  rw [hst1]
  have hg2 : getM (setId (putM initState (fnv1a r1.1) (Meas.single r1.2.val))
      (fnv1a r1.1) r1.1) (fnv1a r2.1) = some 0 := by
    rw [hcol]
    unfold getM
    simp [setId, putM, initState]
  have hst2 : stepRow (setId (putM initState (fnv1a r1.1) (Meas.single r1.2.val))
      (fnv1a r1.1) r1.1) r2 =
      { buckets := fun j => if j = fnv1a r1.1 &&& (nBuckets - 1)
          then [⟨fnv1a r1.1, 0⟩] else [],
        meas := [(Meas.single r1.2.val).add1 r2.2.val],
        ids := fun h => if h = fnv1a r1.1 then some r1.1 else none } := by
    unfold stepRow stepRecord
    rw [hg2]
    rfl
  rw [hst2]
  unfold chunkResult
  have hj0 : fnv1a r1.1 &&& (nBuckets - 1) < nBuckets := by
    have hle : fnv1a r1.1 &&& (nBuckets - 1) ≤ nBuckets - 1 := Nat.and_le_right
    have hnb : nBuckets = 4096 := by decide
    omega
  refine flatMap_if_single nBuckets (fnv1a r1.1 &&& (nBuckets - 1)) hj0 _ _ ?_
  intro j
  dsimp only
  by_cases h : j = fnv1a r1.1 &&& (nBuckets - 1)
  · rw [if_pos h, if_pos h]
    simp
  · rw [if_neg h, if_neg h]
    rfl

/-- C1 (amended with the hash-injectivity assumption the source states):
for every nonempty list of well-formed records whose station names do not
collide under 64-bit FNV-1a, and every worker count with a nonzero chunk
size, the multi-chunk pipeline `process` succeeds and its result table
agrees pointwise with the single-pass reference aggregation: no record at
a chunk boundary is dropped or counted twice. -/
theorem c1_pipeline_refines_aggregate (rows : List Row) (hne : rows ≠ [])
    (hw : ∀ r ∈ rows, wfRow r) (hinj : hashInj rows) (nc : Nat)
    (hcs : (encodeRows rows).length / nc ≠ 0) :
    ∃ t, process (encodeRows rows) nc = some t ∧
      tableEquiv t (aggregate (rowVals rows)) := by
  rcases List.eq_nil_or_concat rows with h | ⟨rows0, rL, h⟩
  · exact absurd h hne
  subst h
  simp only [List.concat_eq_append] at hw hinj hcs ⊢
  by_cases h0 : rows0 = []
  · subst h0
    rw [List.nil_append] at hw hinj hcs ⊢
    rw [encodeRows_singleton] at hcs ⊢
    exact ⟨_, process_single rL (hw rL (by simp)) nc hcs,
      fun n => (lookupT_aggregate_single rL n).symm⟩
  · have henc : encodeRows (rows0 ++ [rL]) = encodeRows rows0 ++ rowBytes rL := by
      rw [encodeRows_append, encodeRows_singleton]
    rw [henc] at hcs ⊢
    obtain ⟨t, hp, hl⟩ := process_encode_multi rows0 rL hw hinj h0 nc hcs
    exact ⟨t, hp, hl⟩

/-- Witness for C1 on a concrete two-record input with one worker. -/
theorem c1_pipeline_refines_aggregate_witness :
    ([(([97] : List Nat), (⟨false, 1, none, 2⟩ : Numeral)),
      ([98], ⟨false, 3, none, 4⟩)] : List Row) ≠ [] ∧
    (∀ r ∈ ([(([97] : List Nat), (⟨false, 1, none, 2⟩ : Numeral)),
      ([98], ⟨false, 3, none, 4⟩)] : List Row), wfRow r) ∧
    hashInj ([(([97] : List Nat), (⟨false, 1, none, 2⟩ : Numeral)),
      ([98], ⟨false, 3, none, 4⟩)] : List Row) ∧
    (encodeRows ([(([97] : List Nat), (⟨false, 1, none, 2⟩ : Numeral)),
      ([98], ⟨false, 3, none, 4⟩)] : List Row)).length / 1 ≠ 0 ∧
    ∃ t, process (encodeRows ([(([97] : List Nat), (⟨false, 1, none, 2⟩ : Numeral)),
      ([98], ⟨false, 3, none, 4⟩)] : List Row)) 1 = some t ∧
      tableEquiv t (aggregate (rowVals ([(([97] : List Nat),
        (⟨false, 1, none, 2⟩ : Numeral)), ([98], ⟨false, 3, none, 4⟩)] : List Row))) :=
  ⟨by decide, by decide, by decide, by decide,
    c1_pipeline_refines_aggregate _ (by decide) (by decide) (by decide) 1 (by decide)⟩

theorem fnv1a_lt (bs : List Nat) : fnv1a bs < 2 ^ 64 := by
  have hgen : ∀ (l : List Nat) (h : Nat), h < 2 ^ 64 → l.foldl fnvStep h < 2 ^ 64 := by
    intro l
    induction l with
    | nil => intro h hh; exact hh
    | cons b l ih =>
      intro h hh
      rw [List.foldl_cons]
      refine ih _ ?_
      unfold fnvStep
      exact Nat.mod_lt _ (by norm_num)
  exact hgen bs _ (by norm_num)

/-- There are more 14-letter A–Z station names than 64-bit hash values, so
two distinct well-formed names share an FNV-1a hash. -/
theorem fnv_name_collision :
    ∃ n1 n2 : List Nat, n1 ≠ n2 ∧ fnv1a n1 = fnv1a n2 ∧ wfName n1 ∧ wfName n2 ∧
      n1.length = 14 ∧ n2.length = 14 := by
  have hcard : Fintype.card (Fin (2 ^ 64)) < Fintype.card (Fin 14 → Fin 26) := by
    rw [Fintype.card_fin, Fintype.card_fun, Fintype.card_fin, Fintype.card_fin]
    norm_num
  obtain ⟨g1, g2, hne, heq⟩ := Fintype.exists_ne_map_eq_of_card_lt
    (fun g : Fin 14 → Fin 26 =>
      (⟨fnv1a (List.ofFn (fun i => 65 + (g i : Nat))), fnv1a_lt _⟩ : Fin (2 ^ 64))) hcard
  have hwf : ∀ g : Fin 14 → Fin 26, wfName (List.ofFn (fun i => 65 + (g i : Nat))) := by
    intro g b hb
    rw [List.mem_ofFn] at hb
    obtain ⟨i, hi⟩ := hb
    have hib : 65 + (g i : Nat) = b := hi
    have hlt := (g i).isLt
    refine ⟨?_, ?_, ?_⟩ <;> omega
  refine ⟨List.ofFn (fun i => 65 + (g1 i : Nat)), List.ofFn (fun i => 65 + (g2 i : Nat)),
    ?_, ?_, hwf g1, hwf g2, List.length_ofFn _, List.length_ofFn _⟩
  · intro h
    apply hne
    have hfg := List.ofFn_inj.mp h
    funext i
    have hfi := congrFun hfg i
    have h2 : (g1 i : Nat) = (g2 i : Nat) := by omega
    exact Fin.ext h2
  · have := congrArg Fin.val heq
    simpa using this

/-- C10: there exist two distinct well-formed station names with equal
64-bit FNV-1a hashes, and a chunk holding one record of each silently
aggregates both into a single entry reported under the first-occurring
name — `getMeasurement` compares only the hash, never the name bytes, so
no error or detection occurs. -/
theorem c10_collision_silently_merged :
    ∃ r1 r2 : Row, r1.1 ≠ r2.1 ∧ fnv1a r2.1 = fnv1a r1.1 ∧ wfRow r1 ∧ wfRow r2 ∧
      ∀ tail : List Nat, tail.length = 4 → (∀ b ∈ tail, b < 256) →
        processChunk (encodeRows [r1, r2] ++ tail) =
          [(r1.1, (Meas.single r1.2.val).add1 r2.2.val)] := by
  obtain ⟨n1, n2, hne, heq, hwn1, hwn2, _, _⟩ := fnv_name_collision
  have hu : (⟨false, 1, none, 2⟩ : Numeral).wf := by decide
  refine ⟨(n1, ⟨false, 1, none, 2⟩), (n2, ⟨false, 1, none, 2⟩), hne, heq.symm,
    ⟨hwn1, hu⟩, ⟨hwn2, hu⟩, ?_⟩
  intro tail htail htb
  exact processChunk_collision _ _ tail ⟨hwn1, hu⟩ ⟨hwn2, hu⟩ htail htb heq.symm

set_option maxRecDepth 40000 in
/-- C1 counterexample: without the no-hash-collision assumption the
claimed pipeline/reference equivalence is false. Two distinct station
names colliding under FNV-1a are merged by the chunk worker, so the
pipeline's table lacks one of the stations the reference aggregation
carries. -/
theorem c1_counterexample :
    ¬ (∀ rows : List Row, rows ≠ [] → (∀ r ∈ rows, wfRow r) → ∀ nc : Nat,
        (encodeRows rows).length / nc ≠ 0 →
        ∃ t, process (encodeRows rows) nc = some t ∧
          tableEquiv t (aggregate (rowVals rows))) := by
  intro hclaim
  obtain ⟨n1, n2, hnn, heq, hwn1, hwn2, hl1, hl2⟩ := fnv_name_collision
  have hu : (⟨false, 1, none, 2⟩ : Numeral).wf := by decide
  have hw1 : wfRow (n1, ⟨false, 1, none, 2⟩) := ⟨hwn1, hu⟩
  have hw2 : wfRow (n2, ⟨false, 1, none, 2⟩) := ⟨hwn2, hu⟩
  have hwL : wfRow (([97] : List Nat), ⟨false, 1, none, 2⟩) :=
    ⟨(by unfold wfName; decide : wfName [97]), hu⟩
  have hwall : ∀ r ∈ ([(n1, ⟨false, 1, none, 2⟩), (n2, ⟨false, 1, none, 2⟩),
      ([97], ⟨false, 1, none, 2⟩)] : List Row), wfRow r := by
    intro r hr
    rcases List.mem_cons.mp hr with h | hr2
    · subst h; exact hw1
    rcases List.mem_cons.mp hr2 with h | hr3
    · subst h; exact hw2
    simp only [List.mem_singleton] at hr3
    subst hr3
    exact hwL
  have hcs : (encodeRows ([(n1, ⟨false, 1, none, 2⟩), (n2, ⟨false, 1, none, 2⟩),
      ([97], ⟨false, 1, none, 2⟩)] : List Row)).length / 1 ≠ 0 := by
    rw [Nat.div_one]
    have := encodeRows_length_ge (([97] : List Nat), ⟨false, 1, none, 2⟩) _
      (by simp : (([97] : List Nat), (⟨false, 1, none, 2⟩ : Numeral)) ∈
        ([(n1, ⟨false, 1, none, 2⟩), (n2, ⟨false, 1, none, 2⟩),
          ([97], ⟨false, 1, none, 2⟩)] : List Row))
    omega
  obtain ⟨t, hp, heqv⟩ := hclaim
    [(n1, ⟨false, 1, none, 2⟩), (n2, ⟨false, 1, none, 2⟩), ([97], ⟨false, 1, none, 2⟩)]
    (by simp) hwall 1 hcs
  rw [show ([(n1, ⟨false, 1, none, 2⟩), (n2, ⟨false, 1, none, 2⟩),
      ([97], ⟨false, 1, none, 2⟩)] : List Row) =
    [(n1, ⟨false, 1, none, 2⟩), (n2, ⟨false, 1, none, 2⟩)] ++
      [(([97] : List Nat), ⟨false, 1, none, 2⟩)] from rfl, encodeRows_append,
    encodeRows_singleton] at hp
  rw [process_one_chunk _ _ (by
      intro r hr
      rcases List.mem_cons.mp hr with h | hr2
      · subst h; exact hw1
      simp only [List.mem_singleton] at hr2
      subst hr2
      exact hw2) hwL (by simp)] at hp
  rw [processChunk_collision _ _ _ hw1 hw2 (by decide) (by decide) heq.symm] at hp
  have h97 : (([97] : List Nat)) ≠ n2 := by
    intro h
    have hlen := congrArg List.length h
    rw [hl2] at hlen
    simp at hlen
  have hlt : lookupT t n2 = none := by
    rw [← Option.some.inj hp]
    rw [lookupT_mergeAll _ n2 (by
      intro t2 ht2
      rcases List.mem_cons.mp ht2 with h | h2
      · subst h; simp
      simp only [List.mem_singleton] at h2
      subst h2
      simp)]
    simp [lookupT_cons, lookupT_nil, optCombine, hnn, h97]
  have hagg : lookupT (aggregate (rowVals ([(n1, ⟨false, 1, none, 2⟩),
      (n2, ⟨false, 1, none, 2⟩), ([97], ⟨false, 1, none, 2⟩)] : List Row))) n2 =
      some (Meas.single (⟨false, 1, none, 2⟩ : Numeral).val) := by
    rw [show ([(n1, ⟨false, 1, none, 2⟩), (n2, ⟨false, 1, none, 2⟩),
        ([97], ⟨false, 1, none, 2⟩)] : List Row) =
      [(n1, ⟨false, 1, none, 2⟩)] ++ ([(n2, ⟨false, 1, none, 2⟩)] ++
        [(([97] : List Nat), ⟨false, 1, none, 2⟩)]) from rfl]
    rw [rowVals_append, lookupT_aggregate_append, rowVals_append,
      lookupT_aggregate_append, lookupT_aggregate_single, lookupT_aggregate_single,
      lookupT_aggregate_single]
    simp [lookupT_cons, lookupT_nil, optCombine, hnn, h97]
  have hfin := heqv n2
  rw [hlt, hagg] at hfin
  exact Option.noConfusion hfin

/-! ### The output line -/

theorem insertSorted_perm (x : List Nat) (l : List (List Nat)) :
    (insertSorted x l).Perm (x :: l) := by
  induction l with
  | nil => exact List.Perm.refl _
  | cons y ys ih =>
    unfold insertSorted
    by_cases h : lexLe x y = true
    · rw [if_pos h]
    · rw [if_neg h]
      exact (ih.cons y).trans (List.Perm.swap x y ys)

theorem sortStrings_perm (l : List (List Nat)) : (sortStrings l).Perm l := by
  induction l with
  | nil => exact List.Perm.refl _
  | cons x xs ih =>
    unfold sortStrings
    exact (insertSorted_perm x (sortStrings xs)).trans (ih.cons x)

theorem lexLe_total (a b : List Nat) : lexLe a b = true ∨ lexLe b a = true := by
  induction a generalizing b with
  | nil => exact Or.inl rfl
  | cons x as ih =>
    rcases b with _ | ⟨y, bs⟩
    · exact Or.inr rfl
    · unfold lexLe
      by_cases h1 : x < y
      · simp only [if_pos h1]
        exact Or.inl trivial
      · by_cases h2 : y < x
        · simp only [if_neg h1, if_pos h2]
          exact Or.inr trivial
        · simp only [if_neg h1, if_neg h2]
          exact ih bs

theorem lexLe_trans (a b c : List Nat) (h1 : lexLe a b = true) (h2 : lexLe b c = true) :
    lexLe a c = true := by
  induction a generalizing b c with
  | nil => rfl
  | cons x as ih =>
    rcases b with _ | ⟨y, bs⟩
    · simp [lexLe] at h1
    rcases c with _ | ⟨z, cs⟩
    · simp [lexLe] at h2
    unfold lexLe at h1 h2 ⊢
    by_cases hxy : x < y
    · by_cases hyz : y < z
      · rw [if_pos (by omega : x < z)]
      · rw [if_neg hyz] at h2
        by_cases hzy : z < y
        · rw [if_pos hzy] at h2
          exact absurd h2 (by simp)
        · rw [if_pos (by omega : x < z)]
    · rw [if_neg hxy] at h1
      by_cases hyx : y < x
      · rw [if_pos hyx] at h1
        exact absurd h1 (by simp)
      · rw [if_neg hyx] at h1
        have hxey : x = y := by omega
        subst hxey
        by_cases hyz : x < z
        · rw [if_pos hyz]
        · rw [if_neg hyz] at h2 ⊢
          by_cases hzy : z < x
          · rw [if_pos hzy] at h2
            exact absurd h2 (by simp)
          · rw [if_neg hzy] at h2 ⊢
            exact ih bs cs h1 h2

theorem insertSorted_pairwise (x : List Nat) (l : List (List Nat))
    (h : l.Pairwise (fun a b => lexLe a b = true)) :
    (insertSorted x l).Pairwise (fun a b => lexLe a b = true) := by
  induction l with
  | nil => exact List.pairwise_singleton _ _
  | cons y ys ih =>
    have hsplit := List.pairwise_cons.mp h
    unfold insertSorted
    by_cases hxy : lexLe x y = true
    · rw [if_pos hxy]
      rw [List.pairwise_cons]
      refine ⟨?_, h⟩
      intro z hz
      rcases List.mem_cons.mp hz with h2 | h2
      · subst h2
        exact hxy
      · exact lexLe_trans x y z hxy (hsplit.1 z h2)
    · rw [if_neg hxy]
      rw [List.pairwise_cons]
      refine ⟨?_, ih hsplit.2⟩
      intro z hz
      rcases List.mem_cons.mp ((insertSorted_perm x ys).mem_iff.mp hz) with h2 | h2
      · rw [h2]
        rcases lexLe_total x y with h3 | h3
        · exact absurd h3 hxy
        · exact h3
      · exact hsplit.1 z h2

theorem sortStrings_pairwise (l : List (List Nat)) :
    (sortStrings l).Pairwise (fun a b => lexLe a b = true) := by
  induction l with
  | nil => exact List.Pairwise.nil
  | cons x xs ih => exact insertSorted_pairwise x _ ih

theorem intercalate_eq_flatten (sep x : List Nat) (xs : List (List Nat)) :
    List.intercalate sep (x :: xs) = x ++ (xs.map (fun y => sep ++ y)).flatten := by
  induction xs generalizing x with
  | nil => simp [List.intercalate]
  | cons y ys ih =>
    rw [show List.intercalate sep (x :: y :: ys) =
      x ++ sep ++ List.intercalate sep (y :: ys) by
        simp [List.intercalate, List.intersperse]]
    rw [ih y]
    simp [List.append_assoc]

/-- The `i > 0` comma logic of the output loop produces exactly the
comma-space intercalation of the entries. -/
theorem emitEntries_intercalate (t : Table) (ids : List (List Nat)) :
    emitEntries t ids = List.intercalate [44, 32]
      (ids.map (fun id => entryLine id ((lookupT t id).getD (Meas.single 0)))) := by
  have hgen : ∀ (l : List (List Nat)) (acc : List Nat),
      (l.foldl (fun (acc : List Nat × Bool) id =>
        (acc.1 ++ (if acc.2 then [44, 32] else []) ++
          entryLine id ((lookupT t id).getD (Meas.single 0)), true)) (acc, true)).1 =
      acc ++ (l.map (fun id => [44, 32] ++
        entryLine id ((lookupT t id).getD (Meas.single 0)))).flatten := by
    intro l
    induction l with
    | nil => intro acc; simp
    | cons id l ih =>
      intro acc
      rw [List.foldl_cons]
      dsimp only
      rw [if_pos rfl, ih]
      simp [List.append_assoc]
  rcases ids with _ | ⟨id0, ids⟩
  · rfl
  · unfold emitEntries
    rw [List.foldl_cons]
    dsimp only
    rw [if_neg (by simp), hgen ids _, List.map_cons, intercalate_eq_flatten]
    simp [List.map_map, Function.comp_def]

theorem natDigitsGo_digits (fuel : Nat) : ∀ (n : Nat), ∀ b ∈ natDigitsGo fuel n,
    48 ≤ b ∧ b ≤ 57 := by
  induction fuel with
  | zero => intro n b hb; cases hb
  | succ fuel ih =>
    intro n b hb
    unfold natDigitsGo at hb
    by_cases h : n < 10
    · rw [if_pos h] at hb
      simp only [List.mem_singleton] at hb
      omega
    · rw [if_neg h] at hb
      rcases List.mem_append.mp hb with h2 | h2
      · exact ih _ b h2
      · simp only [List.mem_singleton] at h2
        have : n % 10 < 10 := Nat.mod_lt _ (by omega)
        omega

theorem natDigitsGo_ne_nil (fuel n : Nat) (h : 1 ≤ fuel) : natDigitsGo fuel n ≠ [] := by
  rcases fuel with _ | fuel
  · omega
  · unfold natDigitsGo
    by_cases h2 : n < 10
    · rw [if_pos h2]
      simp
    · rw [if_neg h2]
      simp

/-- `%.1f` output shape: optional minus, nonempty integer digits, one dot,
exactly one decimal digit. -/
theorem fmtF1_shape (q : ℚ) :
    ∃ sgn ds d, fmtF1 q = sgn ++ ds ++ [46, d] ∧ (sgn = [] ∨ sgn = [45]) ∧
      ds ≠ [] ∧ (∀ b ∈ ds, 48 ≤ b ∧ b ≤ 57) ∧ 48 ≤ d ∧ d ≤ 57 := by
  refine ⟨(if (⌊q * 10⌋ : Int) < 0 then [45] else []),
    natDigits ((⌊q * 10⌋ : Int).natAbs / 10), 48 + (⌊q * 10⌋ : Int).natAbs % 10,
    rfl, ?_, ?_, ?_, ?_, ?_⟩
  · by_cases h : (⌊q * 10⌋ : Int) < 0
    · rw [if_pos h]
      exact Or.inr rfl
    · rw [if_neg h]
      exact Or.inl rfl
  · exact natDigitsGo_ne_nil _ _ (by omega)
  · exact natDigitsGo_digits _ _
  · omega
  · have : (⌊q * 10⌋ : Int).natAbs % 10 < 10 := Nat.mod_lt _ (by omega)
    omega

/-- C9: the emitted output is one line `{name1=v/v/v, name2=v/v/v, ...}`:
station names in lexicographic byte order (a sorted permutation of the
table's names), entries comma-space separated and enclosed in braces, each
entry `name=min/mean/max` with every numeric field carrying exactly one
decimal digit after its dot. -/
theorem c9_output_format (t : Table) :
    ∃ ids : List (List Nat),
      ids.Perm (t.map Prod.fst) ∧
      ids.Pairwise (fun a b => lexLe a b = true) ∧
      emit t = [123] ++ List.intercalate [44, 32]
        (ids.map (fun id => entryLine id ((lookupT t id).getD (Meas.single 0)))) ++
        [125, 10] ∧
      (∀ id m, entryLine id m = id ++ [61] ++ fmtF1 (displayed m).1 ++ [47] ++
        fmtF1 (displayed m).2.1 ++ [47] ++ fmtF1 (displayed m).2.2) ∧
      ∀ q : ℚ, ∃ sgn ds d, fmtF1 q = sgn ++ ds ++ [46, d] ∧ (sgn = [] ∨ sgn = [45]) ∧
        ds ≠ [] ∧ (∀ b ∈ ds, 48 ≤ b ∧ b ≤ 57) ∧ 48 ≤ d ∧ d ≤ 57 := by
  refine ⟨sortStrings (t.map Prod.fst), sortStrings_perm _, sortStrings_pairwise _,
    ?_, fun id m => rfl, fmtF1_shape⟩
  unfold emit
  rw [emitEntries_intercalate]

end OneBRC
